import Mathlib

/-!
# bitstats: a two-level ordered store of value sets

Shallow embedding of `bitstats.go` and `persistance.go`.

* A Go `string` / `[]byte` is a `List Byte` (`Byte = Fin 256`); `s2b` is the identity on it.
* `btree.BTreeG[T]` (github.com/tidwall/btree) is embedded by its abstract state: the list of
  its items in ascending order of the `less` function given at construction.  The `less`
  function is passed to every operation.
* `roaring64.Bitmap` is embedded by its abstract state: the ascending list of its members.
  Values are `uint64` in Go; no arithmetic is performed on them, so they are `Nat` here.
* The trees hold pointers.  A mutation made through a pointer returned by `Get` is embedded
  by storing the mutated node back under its key with `Set` (which replaces the node with
  that key).
* Functions of the store return the new store together with the Go return value.
-/

namespace Bitstats

/-- One byte of a Go string. -/
abbrev Byte := Fin 256

/-- Go `bytes.Compare`: the lexicographic comparison of two byte strings, as -1, 0 or +1. -/
def bytesCompare : List Byte → List Byte → Int
  | [], [] => 0
  | [], _ :: _ => -1
  | _ :: _, [] => 1
  | a :: as, b :: bs =>
    if a < b then -1 else if b < a then 1 else bytesCompare as bs

/-- Go `s2b`: `[]byte(s)`. -/
def s2b (s : List Byte) : List Byte := s

/-! ## The ordered index (`btree.BTreeG`) -/

/-- Abstract state of a `btree.BTreeG[T]`: its items in ascending order. -/
structure BTreeG (α : Type) where
  items : List α

namespace BTreeG

variable {α : Type}

/-- A tree as returned by `btree.NewBTreeGOptions`. -/
def empty : BTreeG α := ⟨[]⟩

/-- Two items are the same key when neither is less than the other. -/
def same (less : α → α → Bool) (a b : α) : Bool := !less a b && !less b a

/-- The method `Get(key)`: the item with the key of `key`, if any. -/
def Get (less : α → α → Bool) (t : BTreeG α) (key : α) : Option α :=
  t.items.find? (fun x => same less x key)

/-- Insert-or-replace of `item` in an ascending list. -/
def setList (less : α → α → Bool) (item : α) : List α → List α
  | [] => [item]
  | x :: xs =>
    if less item x then item :: x :: xs
    else if less x item then x :: setList less item xs
    else item :: xs

/-- The method `Set(item)`: insert `item`, replacing the item with the same key if present. -/
def Set (less : α → α → Bool) (t : BTreeG α) (item : α) : BTreeG α :=
  ⟨setList less item t.items⟩

/-- Removal of the item with the key of `key` from a list; also returns the removed item. -/
def deleteList (less : α → α → Bool) (key : α) : List α → List α × Option α
  | [] => ([], none)
  | x :: xs =>
    if same less x key then (xs, some x)
    else ((x :: (deleteList less key xs).1), (deleteList less key xs).2)

/-- The method `Delete(key)`: the tree without the item of that key, and the removed item. -/
def Delete (less : α → α → Bool) (t : BTreeG α) (key : α) : BTreeG α × Option α :=
  (⟨(deleteList less key t.items).1⟩, (deleteList less key t.items).2)

/-- The method `Len()`. -/
def Len (t : BTreeG α) : Nat := t.items.length

/-- The method `Walk(iter)` with an iterator that always returns true: every item is visited,
in ascending order. -/
def Walk (t : BTreeG α) : List α := t.items

/-- Visit the items of a list in order, threading a state, until the iterator returns false. -/
def iterate {σ : Type} (iter : σ → α → σ × Bool) : σ → List α → σ
  | st, [] => st
  | st, x :: xs =>
    if (iter st x).2 then iterate iter (iter st x).1 xs else (iter st x).1

/-- The method `Ascend(pivot, iter)`: visit the items not less than `pivot` in ascending
order until `iter` returns false.  The captured variables of the Go closure are the state. -/
def Ascend {σ : Type} (less : α → α → Bool) (t : BTreeG α) (pivot : α)
    (iter : σ → α → σ × Bool) (init : σ) : σ :=
  iterate iter init (t.items.dropWhile (fun x => less x pivot))

end BTreeG

/-! ## The value set (`roaring64.Bitmap`) -/

/-- Abstract state of a `roaring64.Bitmap`: its members in ascending order. -/
structure Bitmap where
  vals : List Nat
deriving DecidableEq

namespace Bitmap

/-- Insertion of a value at its place in an ascending list. -/
def insertAsc (v : Nat) : List Nat → List Nat
  | [] => [v]
  | x :: xs => if v < x then v :: x :: xs else if v = x then x :: xs else x :: insertAsc v xs

/-- Go `roaring64.New()`. -/
def New : Bitmap := ⟨[]⟩

/-- The method `Contains(v)`. -/
def Contains (b : Bitmap) (v : Nat) : Bool := decide (v ∈ b.vals)

/-- The method `CheckedAdd(v)`: adds `v`, returns true when `v` was not a member. -/
def CheckedAdd (b : Bitmap) (v : Nat) : Bitmap × Bool :=
  if b.Contains v then (b, false) else (⟨insertAsc v b.vals⟩, true)

/-- The method `CheckedRemove(v)`: removes `v`, returns true when `v` was a member. -/
def CheckedRemove (b : Bitmap) (v : Nat) : Bitmap × Bool :=
  if b.Contains v then (⟨b.vals.filter (fun x => decide (x ≠ v))⟩, true) else (b, false)

/-- The method `ToArray()`: the members, ascending. -/
def ToArray (b : Bitmap) : List Nat := b.vals

/-- The method `GetCardinality()`. -/
def GetCardinality (b : Bitmap) : Nat := b.vals.length

end Bitmap

/-! ## The store -/

/-- Go `statsEvent`. -/
structure statsEvent where
  name : List Byte
  values : Bitmap

/-- Go `statsPartition`. -/
structure statsPartition where
  name : List Byte
  events : BTreeG statsEvent

/-- Go `Stats`. -/
structure Stats where
  partitions : BTreeG statsPartition

/-- Go `statsPartitionLess`. -/
def statsPartitionLess (a b : statsPartition) : Bool := decide (bytesCompare a.name b.name < 0)

/-- Go `statsEventLess`. -/
def statsEventLess (a b : statsEvent) : Bool := decide (bytesCompare a.name b.name < 0)

/-- A `&statsPartition{name: n}` used as a search key; its `events` pointer is nil and is
never read. -/
def queryPartition (n : List Byte) : statsPartition := ⟨n, BTreeG.empty⟩

/-- A `&statsEvent{name: n}` used as a search key; its `values` pointer is nil and is never
read. -/
def queryEvent (n : List Byte) : statsEvent := ⟨n, Bitmap.New⟩

/-- Go `(*statsPartition).initialize`. -/
def statsPartition.initialize (p : statsPartition) : statsPartition :=
  { p with events := BTreeG.empty }

/-- Go `(*statsEvent).initialize`. -/
def statsEvent.initialize (e : statsEvent) : statsEvent :=
  { e with values := Bitmap.New }

/-- Go `New`. -/
def New : Stats := ⟨BTreeG.empty⟩

namespace Stats

/-- Go `(*Stats).Add`.  When the event exists, `eventExists || e.values.CheckedAdd(value)`
does not evaluate its right operand. -/
def Add (s : Stats) (partition event : List Byte) (value : Nat) : Stats × Bool :=
  match s.partitions.Get statsPartitionLess (queryPartition (s2b partition)) with
  | some part =>
    match part.events.Get statsEventLess (queryEvent (s2b event)) with
    | some _ => (s, true)
    | none =>
      let e := statsEvent.initialize (queryEvent (s2b event))
      let r := e.values.CheckedAdd value
      let part1 : statsPartition :=
        { part with events := part.events.Set statsEventLess { e with values := r.1 } }
      (⟨s.partitions.Set statsPartitionLess part1⟩, r.2)
  | none =>
    let part := statsPartition.initialize (queryPartition (s2b partition))
    match part.events.Get statsEventLess (queryEvent (s2b event)) with
    | some _ => (⟨s.partitions.Set statsPartitionLess part⟩, true)
    | none =>
      let e := statsEvent.initialize (queryEvent (s2b event))
      let r := e.values.CheckedAdd value
      let part1 : statsPartition :=
        { part with events := part.events.Set statsEventLess { e with values := r.1 } }
      (⟨s.partitions.Set statsPartitionLess part1⟩, r.2)

/-- Go `(*Stats).Remove`. -/
def Remove (s : Stats) (partition event : List Byte) (value : Nat) : Stats × Bool :=
  match s.partitions.Get statsPartitionLess (queryPartition (s2b partition)) with
  | none => (s, false)
  | some part =>
    match part.events.Get statsEventLess (queryEvent (s2b event)) with
    | none => (s, false)
    | some e =>
      let r := e.values.CheckedRemove value
      let part1 : statsPartition :=
        { part with events := part.events.Set statsEventLess { e with values := r.1 } }
      (⟨s.partitions.Set statsPartitionLess part1⟩, r.2)

/-- Go `(*Stats).RemovePartition`. -/
def RemovePartition (s : Stats) (partition : List Byte) : Stats × Bool :=
  let r := s.partitions.Delete statsPartitionLess (queryPartition (s2b partition))
  (⟨r.1⟩, r.2.isSome)

/-- Go `(*Stats).PartitionsCount`. -/
def PartitionsCount (s : Stats) : Nat := s.partitions.Len

/-- Go `(*Stats).EventsCount`. -/
def EventsCount (s : Stats) (partition : List Byte) : Nat × Bool :=
  match s.partitions.Get statsPartitionLess (queryPartition (s2b partition)) with
  | none => (0, false)
  | some part => (part.events.Len, true)

/-- Go `(*Stats).ValuesCount`. -/
def ValuesCount (s : Stats) (partition event : List Byte) : Nat × Bool :=
  match s.partitions.Get statsPartitionLess (queryPartition (s2b partition)) with
  | none => (0, false)
  | some p =>
    match p.events.Get statsEventLess (queryEvent (s2b event)) with
    | none => (0, false)
    | some e => (e.values.GetCardinality, true)

/-- Go `(*Stats).Values`; the nil slice is the empty list. -/
def Values (s : Stats) (partition event : List Byte) : List Nat × Bool :=
  match s.partitions.Get statsPartitionLess (queryPartition (s2b partition)) with
  | none => ([], false)
  | some p =>
    match p.events.Get statsEventLess (queryEvent (s2b event)) with
    | none => ([], false)
    | some e => (e.values.ToArray, true)

/-- Go `(*Stats).Events`; the nil slice is the empty list. -/
def Events (s : Stats) (partition : List Byte) : List (List Byte) × Bool :=
  match s.partitions.Get statsPartitionLess (queryPartition (s2b partition)) with
  | none => ([], false)
  | some p => (p.events.Walk.map (fun item => item.name), true)

/-- The closure passed to `Ascend` in `EventsByPrefix`; its state is the slice `result`. -/
def prefixIter (eventsEnd : statsEvent) (result : List (List Byte)) (item : statsEvent) :
    List (List Byte) × Bool :=
  if !statsEventLess item eventsEnd then (result, false)
  else (result ++ [item.name], true)

/-- Go `(*Stats).EventsByPrefix`. -/
def EventsByPrefix (s : Stats) (partition eventPrefix : List Byte) :
    List (List Byte) × Bool :=
  match s.partitions.Get statsPartitionLess (queryPartition (s2b partition)) with
  | none => ([], false)
  | some p =>
    let eventStartKey := s2b eventPrefix
    let eventsStart : statsEvent := queryEvent eventStartKey
    let eventsEnd : statsEvent := queryEvent (eventStartKey ++ [255])
    (p.events.Ascend statsEventLess eventsStart (prefixIter eventsEnd) [], true)

/-- Go `(*Stats).Partitions`. -/
def Partitions (s : Stats) : List (List Byte) :=
  s.partitions.Walk.map (fun item => item.name)

end Stats

/-! ## Persistence (`persistance.go`) -/

/-- Go `jsonEventsRepr`. -/
structure jsonEventsRepr where
  Name : List Byte
  Value : List Nat
deriving DecidableEq

/-- Go `jsonStatsRepr`.  The Go map `Partitions` is the list of its entries, in the order in
which a `range` loop visits them; its keys are distinct.  The entries of an event slice are
pointers, `none` is the nil pointer (JSON `null`). -/
structure jsonStatsRepr where
  Partitions : List (List Byte × List (Option jsonEventsRepr))
deriving DecidableEq

/-- The map assignment `ps[k] = v`. -/
def mapAssign {β : Type} (k : List Byte) (v : β) : List (List Byte × β) → List (List Byte × β)
  | [] => [(k, v)]
  | (k1, v1) :: rest =>
    if k1 = k then (k, v) :: rest else (k1, v1) :: mapAssign k v rest

/-- How a call of `Deserialize` ends. -/
inductive DeserializeExit where
  | returnedNil
  | returnedError (msg : String)
  | nilDereference
deriving DecidableEq

namespace Stats

/-- The event records that `Serialize` builds for one partition. -/
def eventsRepr (part : statsPartition) : List (Option jsonEventsRepr) :=
  part.events.Walk.map (fun event => some ⟨event.name, event.values.ToArray⟩)

/-- The `jsonStatsRepr` that `Serialize` builds and hands to `json.Marshal`. -/
def toRepr (s : Stats) : jsonStatsRepr :=
  ⟨s.partitions.Walk.foldl (fun ps part => mapAssign part.name (eventsRepr part) ps) []⟩

/-- Go `(*Stats).Serialize`, with `json.Marshal` as a parameter. -/
def Serialize (marshal : jsonStatsRepr → Except String (List Byte)) (s : Stats) :
    Except String (List Byte) :=
  match marshal s.toRepr with
  | .error err => .error ("unable to encode to json: " ++ err)
  | .ok data => .ok data

/-- The innermost loop of `Deserialize`: `for _, val := range event.Value`. -/
def replayValues (s : Stats) (partitionName eventName : List Byte) : List Nat → Stats
  | [] => s
  | val :: rest => replayValues (s.Add partitionName eventName val).1 partitionName eventName rest

/-- The middle loop of `Deserialize`: `for _, event := range events`.  Reading `event.Value`
through a nil pointer panics; the flag is false when that happened. -/
def replayEvents (s : Stats) (partitionName : List Byte) :
    List (Option jsonEventsRepr) → Stats × Bool
  | [] => (s, true)
  | none :: _ => (s, false)
  | some event :: rest =>
    replayEvents (replayValues s partitionName event.Name event.Value) partitionName rest

/-- The outer loop of `Deserialize`: `for partitionName, events := range obj.Partitions`. -/
def replayPartitions (s : Stats) :
    List (List Byte × List (Option jsonEventsRepr)) → Stats × Bool
  | [] => (s, true)
  | (partitionName, events) :: rest =>
    if (replayEvents s partitionName events).2 then
      replayPartitions (replayEvents s partitionName events).1 rest
    else ((replayEvents s partitionName events).1, false)

/-- Go `(*Stats).Deserialize`, with `json.Unmarshal` into a fresh `jsonStatsRepr` as a
parameter.  Returns the store as the call leaves it, and how the call ended. -/
def Deserialize (unmarshal : List Byte → Except String jsonStatsRepr) (s : Stats)
    (data : List Byte) : Stats × DeserializeExit :=
  match unmarshal data with
  | .error err => (s, .returnedError ("unable to unmarshall json: " ++ err))
  | .ok obj =>
    if (replayPartitions s obj.Partitions).2 then
      ((replayPartitions s obj.Partitions).1, .returnedNil)
    else ((replayPartitions s obj.Partitions).1, .nilDereference)

end Stats

/-! ## Well-formed and reachable stores -/

/-- Strictly ascending byte strings, in the order of `bytes.Compare`. -/
def Ascending (l : List (List Byte)) : Prop :=
  l.Pairwise (fun a b => bytesCompare a b < 0)

instance (l : List (List Byte)) : Decidable (Ascending l) := by
  unfold Ascending; infer_instance

/-- The representation invariant of a bitmap: members strictly ascending. -/
def Bitmap.WF (b : Bitmap) : Prop := b.vals.Pairwise (fun x y => x < y)

instance (b : Bitmap) : Decidable b.WF := by
  unfold Bitmap.WF; infer_instance

/-- The representation invariant of a partition: its events strictly ascending by name, each
with a well-formed bitmap. -/
def statsPartition.WF (p : statsPartition) : Prop :=
  Ascending (p.events.items.map (fun e => e.name)) ∧ ∀ e ∈ p.events.items, e.values.WF

instance (p : statsPartition) : Decidable p.WF := by
  unfold statsPartition.WF; infer_instance

/-- The representation invariant of a store: its partitions strictly ascending by name, each
well formed. -/
def Stats.WF (s : Stats) : Prop :=
  Ascending (s.partitions.items.map (fun p => p.name)) ∧ ∀ p ∈ s.partitions.items, p.WF

instance (s : Stats) : Decidable s.WF := by
  unfold Stats.WF; infer_instance

/-- The stores obtained from `New()` by `Add` calls only. -/
inductive ReachableByAdd : Stats → Prop where
  | new : ReachableByAdd New
  | add {s : Stats} (p e : List Byte) (v : Nat) : ReachableByAdd s → ReachableByAdd (s.Add p e v).1

/-- The stores obtained from `New()` by `Add`, `Remove`, `RemovePartition` and `Deserialize`
calls; a `Deserialize` call may end in any way, with any decoder. -/
inductive Reachable : Stats → Prop where
  | new : Reachable New
  | add {s : Stats} (p e : List Byte) (v : Nat) : Reachable s → Reachable (s.Add p e v).1
  | remove {s : Stats} (p e : List Byte) (v : Nat) :
      Reachable s → Reachable (s.Remove p e v).1
  | removePartition {s : Stats} (p : List Byte) :
      Reachable s → Reachable (s.RemovePartition p).1
  | deserialize {s : Stats} (unmarshal : List Byte → Except String jsonStatsRepr)
      (data : List Byte) : Reachable s → Reachable (s.Deserialize unmarshal data).1

/-! ## Notions used in the statements -/

/-- The `less` function compares items by the byte string `key` of each. -/
def KeyedBy {α : Type} (less : α → α → Bool) (key : α → List Byte) : Prop :=
  ∀ a b, less a b = decide (bytesCompare (key a) (key b) < 0)

/-- The first item of a list whose key is `n`. -/
def lookup {α : Type} (key : α → List Byte) (n : List Byte) (l : List α) : Option α :=
  l.find? (fun x => decide (key x = n))

/-- The partition node named `p`, as `s.partitions.Get` finds it. -/
def Stats.part (s : Stats) (p : List Byte) : Option statsPartition :=
  lookup (fun x => x.name) p s.partitions.items

/-- The event node named `e` of a partition, as `part.events.Get` finds it. -/
def statsPartition.event (q : statsPartition) (e : List Byte) : Option statsEvent :=
  lookup (fun x => x.name) e q.events.items

/-! ## Example stores -/

/-- The byte string "p". -/
def exP : List Byte := [112]

/-- The byte string "e". -/
def exE : List Byte := [101]

/-- The byte string "msg:1". -/
def exMsg1 : List Byte := [109, 115, 103, 58, 49]

/-- The byte string "msg:2". -/
def exMsg2 : List Byte := [109, 115, 103, 58, 50]

/-- The store after `Add("p","e",1)` on `New()`. -/
def exStore1 : Stats := (New.Add exP exE 1).1

/-- The store after `Add("p","msg:1",1)`, `Add("p","msg:1",2)`, `Add("p","msg:2",2)` on
`New()`. -/
def exStore2 : Stats := (((New.Add exP exMsg1 1).1.Add exP exMsg1 2).1.Add exP exMsg2 2).1

/-- The byte string "a". -/
def exA : List Byte := [97]

/-- The byte string "a\xff". -/
def exAFF : List Byte := [97, 255]

/-- The byte string "ab". -/
def exAB : List Byte := [97, 98]

/-- The store after `Add("p","a\xff",1)`, `Add("p","ab",2)` on `New()`. -/
def exStoreFF : Stats := ((New.Add exP exAFF 1).1.Add exP exAB 2).1

/-! ## The `Add` calls of a replay -/

/-- The (partition, event, value) triples of the event records of one partition, in the
order of the loops of `Deserialize`; nil records have none. -/
def eventTriples (p : List Byte) :
    List (Option jsonEventsRepr) → List (List Byte × List Byte × Nat)
  | [] => []
  | none :: rest => eventTriples p rest
  | some ev :: rest => ev.Value.map (fun v => (p, ev.Name, v)) ++ eventTriples p rest

/-- The (partition, event, value) triples of a parsed representation, in the order of the
loops of `Deserialize`. -/
def reprTriples :
    List (List Byte × List (Option jsonEventsRepr)) → List (List Byte × List Byte × Nat)
  | [] => []
  | (p, evs) :: rest => eventTriples p evs ++ reprTriples rest

/-- One `Add` call per triple, in order. -/
def Stats.addAll (s : Stats) : List (List Byte × List Byte × Nat) → Stats
  | [] => s
  | t :: ts => Stats.addAll (s.Add t.1 t.2.1 t.2.2).1 ts

/-- The codec is lossless on the representation `r`: `json.Marshal` succeeds on it and
`json.Unmarshal` of the bytes succeeds with the same map, whose entries a `range` loop may
visit in any order. -/
def LosslessOn (marshal : jsonStatsRepr → Except String (List Byte))
    (unmarshal : List Byte → Except String jsonStatsRepr) (r : jsonStatsRepr) : Prop :=
  ∃ data obj, marshal r = .ok data ∧ unmarshal data = .ok obj ∧
    obj.Partitions.Perm r.Partitions

/-- The byte string "q". -/
def exQ : List Byte := [113]

/-- The store after `Add("q","e",7)`, `Add("p","msg:1",1)`, `Add("p","msg:1",2)`,
`Add("p","msg:2",2)` on `New()`. -/
def exStore3 : Stats :=
  ((((New.Add exQ exE 7).1.Add exP exMsg1 1).1.Add exP exMsg1 2).1.Add exP exMsg2 2).1

/-- An encoder that always succeeds, with the same bytes. -/
def exMarshal : jsonStatsRepr → Except String (List Byte) := fun _ => .ok []

/-- A decoder that yields the representation of `exStore3`, with the map entries in the
reverse order. -/
def exUnmarshal : List Byte → Except String jsonStatsRepr :=
  fun _ => .ok ⟨exStore3.toRepr.Partitions.reverse⟩

/-! ## Further operations and notions -/

/-- The method `Clone()` of a bitmap: an independent bitmap with the same members. -/
def Bitmap.Clone (b : Bitmap) : Bitmap := ⟨b.vals⟩

/-- The method `RunOptimize()` of a bitmap: it changes the internal containers, not the
members. -/
def Bitmap.RunOptimize (b : Bitmap) : Bitmap := b

/-- Go `(*Stats).ValuesSet`; the nil pointer is `none`. -/
def Stats.ValuesSet (s : Stats) (partition event : List Byte) : Option Bitmap × Bool :=
  match s.partitions.Get statsPartitionLess (queryPartition (s2b partition)) with
  | none => (none, false)
  | some p =>
    match p.events.Get statsEventLess (queryEvent (s2b event)) with
    | none => (none, false)
    | some e => (some (Bitmap.RunOptimize e.values.Clone), true)

/-- A name put at its place in an ascending list of names; a list that has the name is left
as it is. -/
def insertName (n : List Byte) : List (List Byte) → List (List Byte)
  | [] => [n]
  | x :: xs =>
    if bytesCompare n x < 0 then n :: x :: xs
    else if bytesCompare x n < 0 then x :: insertName n xs
    else x :: xs

/-- The stores obtained from `New()` by `Add` and `Remove` calls. -/
inductive ReachableByAddRemove : Stats → Prop where
  | new : ReachableByAddRemove New
  | add {s : Stats} (p e : List Byte) (v : Nat) :
      ReachableByAddRemove s → ReachableByAddRemove (s.Add p e v).1
  | remove {s : Stats} (p e : List Byte) (v : Nat) :
      ReachableByAddRemove s → ReachableByAddRemove (s.Remove p e v).1

/-- A decoder that rejects every input. -/
def exUnmarshalFail : List Byte → Except String jsonStatsRepr := fun _ => .error "bad"

/-- The shape of the stores that the operations produce: well formed, at most one value in
every event, at least one event in every partition. -/
def Stats.Sparse (s : Stats) : Prop :=
  s.WF ∧ (∀ p e, (s.Values p e).1.length ≤ 1) ∧
    (∀ p, p ∈ s.Partitions → 1 ≤ (s.Events p).1.length)

/-- The store after `Add("p","e",1)`, `Remove("p","e",1)` on `New()`: the event "e" of "p"
exists and is empty. -/
def exStoreEmpty : Stats := (exStore1.Remove exP exE 1).1

/-- A decoder that yields the representation of `exStoreEmpty`. -/
def exUnmarshalEmpty : List Byte → Except String jsonStatsRepr :=
  fun _ => .ok exStoreEmpty.toRepr

/-- A parsed representation with the partitions "q" and "p". -/
def exEntries : List (List Byte × List (Option jsonEventsRepr)) :=
  [(exQ, [some ⟨exE, [7, 8]⟩]), (exP, [some ⟨exMsg1, [1]⟩, some ⟨exMsg2, []⟩])]

/-! ## Eviction -/

/-- The method `Min()` of the ordered index: the least item in the order of `less`, if the
index has any. -/
def BTreeG.Min {α : Type} (less : α → α → Bool) (t : BTreeG α) : Option α :=
  match t.items with
  | [] => none
  | x :: xs => some (xs.foldl (fun m y => if less y m then y else m) x)

/-- Modelled from the spec: `RemoveMinPartition` is called by `TestRemoveMinPartition` and is
not in the sources.  It "finds and deletes the lexicographically smallest partition,
returning its name and true, or false if no partitions exist"; the partition is removed "as
a whole, including all its events and values".  The name returned with false is the empty
string. -/
def Stats.RemoveMinPartition (s : Stats) : Stats × List Byte × Bool :=
  match s.partitions.Min statsPartitionLess with
  | none => (s, [], false)
  | some part => (⟨(s.partitions.Delete statsPartitionLess part).1⟩, part.name, true)

/-- Calls of `RemoveMinPartition` repeated until one returns false, at most `fuel` of them
returning true: the names returned with true, in order, and the store left. -/
def Stats.removeAllMin : Nat → Stats → List (List Byte) × Stats
  | 0, s => ([], s)
  | fuel + 1, s =>
    if s.RemoveMinPartition.2.2 then
      (s.RemoveMinPartition.2.1 :: (Stats.removeAllMin fuel s.RemoveMinPartition.1).1,
        (Stats.removeAllMin fuel s.RemoveMinPartition.1).2)
    else ([], s.RemoveMinPartition.1)

/-- A parsed representation with the partition "a" and the partition "p", whose only event
record is nil (JSON `null`). -/
def exEntriesNil : List (List Byte × List (Option jsonEventsRepr)) :=
  [(exA, [some ⟨exE, [1]⟩]), (exP, [none])]

/-- The store after `Add("p","a\xff",1)` on `New()`. -/
def exStoreBadUtf8 : Stats := (New.Add exP exAFF 1).1

/-- The byte string "a\xef\xbf\xbd": "a" and the replacement character U+FFFD in UTF-8. -/
def exACoerced : List Byte := [97, 239, 191, 189]

/-- What `json.Unmarshal` yields from the output of `json.Marshal` for the representation of
`exStoreBadUtf8`: `encoding/json` writes the byte 0xFF, which is not valid UTF-8, as the
replacement character U+FFFD. -/
def exUnmarshalCoerced : List Byte → Except String jsonStatsRepr :=
  fun _ => .ok ⟨[(exP, [some ⟨exACoerced, [1]⟩])]⟩

/-! # Theorems -/

/-! ## The order of `bytes.Compare` -/

theorem bytesCompare_self (a : List Byte) : bytesCompare a a = 0 := by
  induction a with
  | nil => rfl
  | cons x xs ih => simp [bytesCompare, ih]

theorem bytesCompare_eq_zero {a b : List Byte} (h : bytesCompare a b = 0) : a = b := by
  induction a generalizing b with
  | nil => cases b with
    | nil => rfl
    | cons y ys => simp [bytesCompare] at h
  | cons x xs ih => cases b with
    | nil => simp [bytesCompare] at h
    | cons y ys =>
      simp only [bytesCompare] at h
      split at h
      · omega
      · split at h
        · omega
        · rename_i h1 h2
          have hxy : x = y := le_antisymm (not_lt.mp h2) (not_lt.mp h1)
          rw [hxy, ih h]

theorem bytesCompare_swap (a b : List Byte) : bytesCompare b a = - bytesCompare a b := by
  induction a generalizing b with
  | nil => cases b <;> simp [bytesCompare]
  | cons x xs ih => cases b with
    | nil => simp [bytesCompare]
    | cons y ys =>
      simp only [bytesCompare]
      by_cases h1 : x < y
      · have h2 : ¬ y < x := not_lt.mpr (le_of_lt h1)
        simp [h1, h2]
      · by_cases h2 : y < x
        · simp [h1, h2]
        · simp [h1, h2, ih]

theorem bytesCompare_trans {a b c : List Byte} (h1 : bytesCompare a b < 0)
    (h2 : bytesCompare b c < 0) : bytesCompare a c < 0 := by
  induction a generalizing b c with
  | nil => cases c with
    | nil => cases b <;> simp [bytesCompare] at h1 h2
    | cons z zs => simp [bytesCompare]
  | cons x xs ih => cases b with
    | nil => simp [bytesCompare] at h1
    | cons y ys => cases c with
      | nil => simp [bytesCompare] at h2
      | cons z zs =>
        simp only [bytesCompare] at h1 h2 ⊢
        by_cases hxy : x < y
        · by_cases hyz : y < z
          · simp [lt_trans hxy hyz]
          · by_cases hzy : z < y
            · simp [hyz, hzy] at h2
            · have : y = z := le_antisymm (not_lt.mp hzy) (not_lt.mp hyz)
              subst this
              simp [hxy]
        · by_cases hyx : y < x
          · simp [hxy, hyx] at h1
          · have : x = y := le_antisymm (not_lt.mp hyx) (not_lt.mp hxy)
            subst this
            by_cases hxz : x < z
            · simp [hxz]
            · by_cases hzx : z < x
              · simp [hxz, hzx] at h2
              · simp only [hxy, hxz, hzx, if_false] at h1 h2 ⊢
                exact ih h1 h2

theorem bytesCompare_irrefl (a : List Byte) : ¬ bytesCompare a a < 0 := by
  rw [bytesCompare_self]; decide

theorem bytesCompare_asymm {a b : List Byte} (h : bytesCompare a b < 0) :
    ¬ bytesCompare b a < 0 := by
  rw [bytesCompare_swap a b]; omega

theorem bytesCompare_ne {a b : List Byte} (h : bytesCompare a b < 0) : a ≠ b := by
  intro hab; subst hab; exact bytesCompare_irrefl a h

theorem bytesCompare_total {a b : List Byte} (h1 : ¬ bytesCompare a b < 0)
    (h2 : ¬ bytesCompare b a < 0) : a = b := by
  rw [bytesCompare_swap a b] at h2
  exact bytesCompare_eq_zero (by omega)

/-- The order of `bytes.Compare` is the lexicographic order of the bytes. -/
theorem bytesCompare_lt_iff_lex (a b : List Byte) :
    bytesCompare a b < 0 ↔ List.Lex (fun x y => x < y) a b := by
  induction a generalizing b with
  | nil => cases b with
    | nil => simp [bytesCompare]
    | cons y ys => simp [bytesCompare, List.Lex.nil]
  | cons x xs ih => cases b with
    | nil => simp [bytesCompare]
    | cons y ys =>
      simp only [bytesCompare]
      by_cases h1 : x < y
      · simp only [h1, if_true]
        exact ⟨fun _ => List.Lex.rel h1, fun _ => by decide⟩
      · by_cases h2 : y < x
        · simp only [h1, h2, if_true, if_false]
          constructor
          · intro h; omega
          · intro h
            cases h with
            | cons h => exact absurd h2 (lt_irrefl _)
            | rel h => exact absurd h h1
        · have hxy : x = y := le_antisymm (not_lt.mp h2) (not_lt.mp h1)
          subst hxy
          simp only [h1, if_false, ih]
          constructor
          · intro h; exact List.Lex.cons h
          · intro h
            cases h with
            | cons h => exact h
            | rel h => exact absurd h h1

/-! ## The ordered index: lookups, insertion and removal -/

theorem statsPartitionLess_keyed : KeyedBy statsPartitionLess (fun p => p.name) :=
  fun _ _ => rfl

theorem statsEventLess_keyed : KeyedBy statsEventLess (fun e => e.name) :=
  fun _ _ => rfl

section Index

variable {α : Type} {less : α → α → Bool} {key : α → List Byte}

theorem less_iff (hl : KeyedBy less key) (a b : α) :
    less a b = true ↔ bytesCompare (key a) (key b) < 0 := by
  rw [hl a b]; simp

theorem same_iff (hl : KeyedBy less key) (a b : α) :
    BTreeG.same less a b = true ↔ key a = key b := by
  unfold BTreeG.same
  simp only [Bool.and_eq_true, Bool.not_eq_true', ← Bool.not_eq_true, less_iff hl]
  constructor
  · rintro ⟨h1, h2⟩; exact bytesCompare_total h1 h2
  · intro h; rw [h]; exact ⟨bytesCompare_irrefl _, bytesCompare_irrefl _⟩

theorem Get_eq_lookup (hl : KeyedBy less key) (t : BTreeG α) (k : α) :
    t.Get less k = lookup key (key k) t.items := by
  unfold BTreeG.Get lookup
  congr 1
  funext x
  rw [Bool.eq_iff_iff, same_iff hl]; simp

theorem lookup_nil (n : List Byte) : lookup key n ([] : List α) = none := rfl

theorem lookup_cons (n : List Byte) (x : α) (xs : List α) :
    lookup key n (x :: xs) = if key x = n then some x else lookup key n xs := by
  unfold lookup
  by_cases h : key x = n <;> simp [List.find?, h]

theorem lookup_key {n : List Byte} {l : List α} {x : α} (h : lookup key n l = some x) :
    key x = n := by
  have := List.find?_some h
  simpa using this

theorem lookup_mem {n : List Byte} {l : List α} {x : α} (h : lookup key n l = some x) :
    x ∈ l := List.mem_of_find?_eq_some h

theorem lookup_eq_none_iff {n : List Byte} {l : List α} :
    lookup key n l = none ↔ n ∉ l.map key := by
  unfold lookup
  rw [List.find?_eq_none]
  simp only [decide_eq_true_eq, List.mem_map, not_exists, not_and]

theorem lookup_isSome_iff {n : List Byte} {l : List α} :
    (lookup key n l).isSome = true ↔ n ∈ l.map key := by
  rw [← not_iff_not, ← @lookup_eq_none_iff _ key]
  cases lookup key n l <;> simp

theorem lookup_of_mem {l : List α} (hs : Ascending (l.map key)) {x : α} (hx : x ∈ l) :
    lookup key (key x) l = some x := by
  induction l with
  | nil => cases hx
  | cons y ys ih =>
    rw [lookup_cons]
    simp only [List.map_cons, Ascending, List.pairwise_cons] at hs
    rcases List.mem_cons.mp hx with rfl | hx
    · simp
    · have hne : key y ≠ key x := bytesCompare_ne (hs.1 _ (List.mem_map_of_mem key hx))
      rw [if_neg hne]
      exact ih hs.2 hx

theorem same_key_of_not_less (hl : KeyedBy less key) {a b : α} (h1 : ¬ less a b = true)
    (h2 : ¬ less b a = true) : key b = key a := by
  apply bytesCompare_total
  · rwa [← less_iff hl]
  · rwa [← less_iff hl]

theorem lookup_setList (hl : KeyedBy less key) (item : α) (l : List α) (n : List Byte) :
    lookup key n (BTreeG.setList less item l) =
      if key item = n then some item else lookup key n l := by
  induction l with
  | nil => simp [BTreeG.setList, lookup_cons, lookup_nil]
  | cons x xs ih =>
    rw [BTreeG.setList]
    by_cases h1 : less item x = true
    · rw [if_pos h1, lookup_cons]
    · by_cases h2 : less x item = true
      · rw [if_neg h1, if_pos h2, lookup_cons, lookup_cons, ih]
        have hne : key x ≠ key item := bytesCompare_ne ((less_iff hl _ _).mp h2)
        by_cases hx : key x = n
        · have : key item ≠ n := fun h => hne (hx.trans h.symm)
          simp [hx, this]
        · simp [hx]
      · have hsame : key x = key item := same_key_of_not_less hl h1 h2
        rw [if_neg h1, if_neg h2, lookup_cons, lookup_cons, hsame]
        by_cases hx : key item = n <;> simp [hx]

theorem mem_setList {item y : α} {l : List α} (h : y ∈ BTreeG.setList less item l) :
    y = item ∨ y ∈ l := by
  induction l with
  | nil => simpa [BTreeG.setList] using h
  | cons x xs ih =>
    rw [BTreeG.setList] at h
    split at h
    · simpa using h
    · split at h
      · rcases List.mem_cons.mp h with h | h
        · exact Or.inr (h ▸ List.mem_cons_self _ _)
        · rcases ih h with h | h
          · exact Or.inl h
          · exact Or.inr (List.mem_cons_of_mem _ h)
      · rcases List.mem_cons.mp h with h | h
        · exact Or.inl h
        · exact Or.inr (List.mem_cons_of_mem _ h)

theorem mem_keys_setList (hl : KeyedBy less key) (item : α) (l : List α) (n : List Byte) :
    n ∈ (BTreeG.setList less item l).map key ↔ n = key item ∨ n ∈ l.map key := by
  rw [← lookup_isSome_iff, lookup_setList hl, ← @lookup_isSome_iff _ key n l]
  by_cases h : key item = n
  · simp [h]
  · have : ¬ n = key item := fun h2 => h h2.symm
    simp [h, this]

theorem ascending_setList (hl : KeyedBy less key) (item : α) {l : List α}
    (hs : Ascending (l.map key)) : Ascending ((BTreeG.setList less item l).map key) := by
  induction l with
  | nil => simp [BTreeG.setList, Ascending]
  | cons x xs ih =>
    have hs2 := hs
    simp only [List.map_cons, Ascending, List.pairwise_cons] at hs2
    rw [BTreeG.setList]
    by_cases h1 : less item x = true
    · rw [if_pos h1]
      simp only [List.map_cons, Ascending, List.pairwise_cons]
      have hix := (less_iff hl _ _).mp h1
      refine ⟨?_, hs2⟩
      intro n hn
      rcases List.mem_cons.mp hn with rfl | hn
      · exact hix
      · exact bytesCompare_trans hix (hs2.1 n hn)
    · by_cases h2 : less x item = true
      · rw [if_neg h1, if_pos h2]
        simp only [List.map_cons, Ascending, List.pairwise_cons]
        refine ⟨?_, ih hs2.2⟩
        intro n hn
        rcases (mem_keys_setList hl item xs n).mp hn with rfl | hn
        · exact (less_iff hl _ _).mp h2
        · exact hs2.1 n hn
      · have hsame : key x = key item := same_key_of_not_less hl h1 h2
        rw [if_neg h1, if_neg h2]
        simp only [List.map_cons, Ascending, List.pairwise_cons]
        rw [← hsame]
        exact hs2

theorem keys_setList_of_mem (hl : KeyedBy less key) (item : α) {l : List α}
    (hs : Ascending (l.map key)) (hm : key item ∈ l.map key) :
    (BTreeG.setList less item l).map key = l.map key := by
  induction l with
  | nil => simp at hm
  | cons x xs ih =>
    have hs2 := hs
    simp only [List.map_cons, Ascending, List.pairwise_cons] at hs2
    rw [BTreeG.setList]
    by_cases h1 : less item x = true
    · exfalso
      have hix := (less_iff hl _ _).mp h1
      rcases List.mem_cons.mp hm with h | h
      · exact bytesCompare_ne hix h
      · exact bytesCompare_asymm hix (hs2.1 _ h)
    · by_cases h2 : less x item = true
      · rw [if_neg h1, if_pos h2]
        have hne : key item ≠ key x := fun h =>
          bytesCompare_ne ((less_iff hl _ _).mp h2) h.symm
        rcases List.mem_cons.mp hm with h | h
        · exact absurd h hne
        · rw [List.map_cons, ih hs2.2 h, List.map_cons]
      · have hsame : key x = key item := same_key_of_not_less hl h1 h2
        rw [if_neg h1, if_neg h2, List.map_cons, List.map_cons, hsame]

theorem deleteList_snd (hl : KeyedBy less key) (k : α) (l : List α) :
    (BTreeG.deleteList less k l).2 = lookup key (key k) l := by
  induction l with
  | nil => rfl
  | cons x xs ih =>
    rw [BTreeG.deleteList, lookup_cons]
    by_cases h : key x = key k
    · rw [if_pos ((same_iff hl x k).mpr h), if_pos h]
    · have : ¬ BTreeG.same less x k = true := fun hs => h ((same_iff hl x k).mp hs)
      rw [if_neg this, if_neg h]
      exact ih

theorem deleteList_sublist (k : α) (l : List α) :
    List.Sublist (BTreeG.deleteList less k l).1 l := by
  induction l with
  | nil => exact List.Sublist.refl _
  | cons x xs ih =>
    rw [BTreeG.deleteList]
    split
    · exact List.sublist_cons_self x xs
    · exact ih.cons₂ x

theorem deleteList_of_none (hl : KeyedBy less key) (k : α) (l : List α)
    (h : lookup key (key k) l = none) : (BTreeG.deleteList less k l).1 = l := by
  induction l with
  | nil => rfl
  | cons x xs ih =>
    rw [lookup_cons] at h
    rw [BTreeG.deleteList]
    by_cases hx : key x = key k
    · rw [if_pos hx] at h; cases h
    · have : ¬ BTreeG.same less x k = true := fun hs => hx ((same_iff hl x k).mp hs)
      rw [if_neg hx] at h
      rw [if_neg this, ih h]

theorem keys_deleteList (hl : KeyedBy less key) (k : α) {l : List α}
    (hs : Ascending (l.map key)) :
    (BTreeG.deleteList less k l).1.map key =
      (l.map key).filter (fun n => decide (n ≠ key k)) := by
  induction l with
  | nil => rfl
  | cons x xs ih =>
    have hs2 := hs
    simp only [List.map_cons, Ascending, List.pairwise_cons] at hs2
    rw [BTreeG.deleteList]
    by_cases hx : key x = key k
    · have hrest : (xs.map key).filter (fun n => decide (n ≠ key k)) = xs.map key := by
        rw [List.filter_eq_self]
        intro n hn
        have := bytesCompare_ne (hs2.1 n hn)
        rw [hx] at this
        simpa using fun h => this h.symm
      rw [if_pos ((same_iff hl x k).mpr hx), List.map_cons, List.filter_cons, hrest]
      simp [hx]
    · have : ¬ BTreeG.same less x k = true := fun h => hx ((same_iff hl x k).mp h)
      rw [if_neg this, List.map_cons, List.map_cons, List.filter_cons, ih hs2.2]
      simp [hx]

theorem lookup_deleteList (hl : KeyedBy less key) (k : α) {l : List α}
    (hs : Ascending (l.map key)) (n : List Byte) :
    lookup key n (BTreeG.deleteList less k l).1 =
      if n = key k then none else lookup key n l := by
  induction l with
  | nil => simp [BTreeG.deleteList, lookup_nil]
  | cons x xs ih =>
    have hs2 := hs
    simp only [List.map_cons, Ascending, List.pairwise_cons] at hs2
    rw [BTreeG.deleteList]
    by_cases hx : key x = key k
    · rw [if_pos ((same_iff hl x k).mpr hx), lookup_cons]
      by_cases hn : n = key k
      · rw [if_pos hn, lookup_eq_none_iff, hn]
        intro hmem
        exact bytesCompare_ne (hs2.1 _ hmem) hx
      · have : ¬ key x = n := fun h => hn (h ▸ hx)
        rw [if_neg hn, if_neg this]
    · have : ¬ BTreeG.same less x k = true := fun h => hx ((same_iff hl x k).mp h)
      rw [if_neg this, lookup_cons, lookup_cons, ih hs2.2]
      by_cases hn : n = key k
      · simp [hn, hx]
      · simp [hn]

end Index

/-- Two strictly ascending lists of byte strings with the same members are equal. -/
theorem ascending_ext {l1 l2 : List (List Byte)} (h1 : Ascending l1) (h2 : Ascending l2)
    (h : ∀ n, n ∈ l1 ↔ n ∈ l2) : l1 = l2 := by
  induction l1 generalizing l2 with
  | nil =>
    cases l2 with
    | nil => rfl
    | cons y ys => exact absurd ((h y).mpr (List.mem_cons_self _ _)) (List.not_mem_nil _)
  | cons x xs ih =>
    cases l2 with
    | nil => exact absurd ((h x).mp (List.mem_cons_self _ _)) (List.not_mem_nil _)
    | cons y ys =>
      simp only [Ascending, List.pairwise_cons] at h1 h2
      have hxy : x = y := by
        rcases List.mem_cons.mp ((h x).mp (List.mem_cons_self _ _)) with hx | hx
        · exact hx
        · rcases List.mem_cons.mp ((h y).mpr (List.mem_cons_self _ _)) with hy | hy
          · exact hy.symm
          · exact absurd (h1.1 y hy) (bytesCompare_asymm (h2.1 x hx))
      subst hxy
      congr 1
      apply ih h1.2 h2.2
      intro n
      constructor
      · intro hn
        rcases List.mem_cons.mp ((h n).mp (List.mem_cons_of_mem _ hn)) with hx | hx
        · exact absurd (hx ▸ h1.1 n hn) (bytesCompare_irrefl _)
        · exact hx
      · intro hn
        rcases List.mem_cons.mp ((h n).mpr (List.mem_cons_of_mem _ hn)) with hx | hx
        · exact absurd (hx ▸ h2.1 n hn) (bytesCompare_irrefl _)
        · exact hx

/-! ## The store: nodes and queries -/

theorem Get_partition (s : Stats) (p : List Byte) :
    s.partitions.Get statsPartitionLess (queryPartition (s2b p)) = s.part p :=
  Get_eq_lookup statsPartitionLess_keyed _ _

theorem Get_event (q : statsPartition) (e : List Byte) :
    q.events.Get statsEventLess (queryEvent (s2b e)) = q.event e :=
  Get_eq_lookup statsEventLess_keyed _ _

theorem part_name {s : Stats} {p : List Byte} {q : statsPartition} (h : s.part p = some q) :
    q.name = p := lookup_key h

theorem event_name {q : statsPartition} {e : List Byte} {ev : statsEvent}
    (h : q.event e = some ev) : ev.name = e := lookup_key h

theorem Values_eq (s : Stats) (p e : List Byte) :
    s.Values p e =
      match s.part p with
      | none => ([], false)
      | some q =>
        match q.event e with
        | none => ([], false)
        | some ev => (ev.values.vals, true) := by
  unfold Stats.Values
  rw [Get_partition]
  cases s.part p with
  | none => rfl
  | some q =>
    simp only [Get_event]
    rfl

theorem ValuesCount_eq (s : Stats) (p e : List Byte) :
    s.ValuesCount p e =
      match s.part p with
      | none => (0, false)
      | some q =>
        match q.event e with
        | none => (0, false)
        | some ev => (ev.values.vals.length, true) := by
  unfold Stats.ValuesCount
  rw [Get_partition]
  cases s.part p with
  | none => rfl
  | some q =>
    simp only [Get_event]
    rfl

theorem Events_eq (s : Stats) (p : List Byte) :
    s.Events p =
      match s.part p with
      | none => ([], false)
      | some q => (q.events.items.map (fun x => x.name), true) := by
  unfold Stats.Events
  rw [Get_partition]
  rfl

theorem EventsCount_eq (s : Stats) (p : List Byte) :
    s.EventsCount p =
      match s.part p with
      | none => (0, false)
      | some q => (q.events.items.length, true) := by
  unfold Stats.EventsCount
  rw [Get_partition]
  rfl

theorem Partitions_eq (s : Stats) :
    s.Partitions = s.partitions.items.map (fun x => x.name) := rfl

theorem part_isSome_iff (s : Stats) (p : List Byte) :
    (s.part p).isSome = true ↔ p ∈ s.Partitions := lookup_isSome_iff

theorem part_eq_none_iff (s : Stats) (p : List Byte) :
    s.part p = none ↔ p ∉ s.Partitions := lookup_eq_none_iff

theorem event_eq_none_iff (q : statsPartition) (e : List Byte) :
    q.event e = none ↔ e ∉ q.events.items.map (fun x => x.name) := lookup_eq_none_iff

theorem part_wf {s : Stats} (hs : s.WF) {p : List Byte} {q : statsPartition}
    (h : s.part p = some q) : q.WF := hs.2 q (lookup_mem h)

theorem part_Set (s : Stats) (q : statsPartition) (p : List Byte) :
    Stats.part ⟨s.partitions.Set statsPartitionLess q⟩ p =
      if q.name = p then some q else s.part p :=
  lookup_setList statsPartitionLess_keyed q s.partitions.items p

theorem event_Set (q : statsPartition) (ev : statsEvent) (e : List Byte) :
    statsPartition.event { q with events := q.events.Set statsEventLess ev } e =
      if ev.name = e then some ev else q.event e :=
  lookup_setList statsEventLess_keyed ev q.events.items e

/-- The three cases of `Add`. -/
theorem Add_eq (s : Stats) (p e : List Byte) (v : Nat) :
    s.Add p e v =
      match s.part p with
      | some q =>
        match q.event e with
        | some _ => (s, true)
        | none =>
          (⟨s.partitions.Set statsPartitionLess
            { q with events := q.events.Set statsEventLess ⟨e, ⟨[v]⟩⟩ }⟩, true)
      | none =>
        (⟨s.partitions.Set statsPartitionLess ⟨p, ⟨[⟨e, ⟨[v]⟩⟩]⟩⟩⟩, true) := by
  unfold Stats.Add
  rw [Get_partition]
  cases s.part p with
  | none => rfl
  | some q =>
    simp only [Get_event]
    cases q.event e with
    | none => rfl
    | some ev => rfl

/-- The three cases of `Remove`. -/
theorem Remove_eq (s : Stats) (p e : List Byte) (v : Nat) :
    s.Remove p e v =
      match s.part p with
      | none => (s, false)
      | some q =>
        match q.event e with
        | none => (s, false)
        | some ev =>
          (⟨s.partitions.Set statsPartitionLess
            { q with events :=
                q.events.Set statsEventLess ⟨ev.name, (ev.values.CheckedRemove v).1⟩ }⟩,
            (ev.values.CheckedRemove v).2) := by
  unfold Stats.Remove
  rw [Get_partition]
  cases s.part p with
  | none => rfl
  | some q =>
    simp only [Get_event]

theorem CheckedRemove_snd (b : Bitmap) (v : Nat) :
    (b.CheckedRemove v).2 = decide (v ∈ b.vals) := by
  unfold Bitmap.CheckedRemove Bitmap.Contains
  by_cases h : v ∈ b.vals <;> simp [h]

theorem CheckedRemove_vals (b : Bitmap) (v : Nat) :
    (b.CheckedRemove v).1.vals = b.vals.filter (fun x => decide (x ≠ v)) := by
  unfold Bitmap.CheckedRemove Bitmap.Contains
  by_cases h : v ∈ b.vals
  · simp [h]
  · simp only [h, decide_False, Bool.false_eq_true, if_false]
    symm
    rw [List.filter_eq_self]
    intro x hx
    have hne : x ≠ v := fun hxv => h (hxv ▸ hx)
    simpa using hne

theorem CheckedRemove_wf {b : Bitmap} (hb : b.WF) (v : Nat) : (b.CheckedRemove v).1.WF := by
  unfold Bitmap.WF
  rw [CheckedRemove_vals]
  exact List.Pairwise.filter _ hb

/-! ## Writing a node back under its key -/

theorem setList_self {α : Type} {less : α → α → Bool} {key : α → List Byte}
    (hl : KeyedBy less key) {l : List α} (hs : Ascending (l.map key)) {x : α} (hx : x ∈ l) :
    BTreeG.setList less x l = l := by
  induction l with
  | nil => cases hx
  | cons y ys ih =>
    have hs2 := hs
    simp only [List.map_cons, Ascending, List.pairwise_cons] at hs2
    rw [BTreeG.setList]
    rcases List.mem_cons.mp hx with rfl | hx
    · have h1 : ¬ less x x = true := fun h => bytesCompare_irrefl _ ((less_iff hl _ _).mp h)
      rw [if_neg h1, if_neg h1]
    · have hlt := hs2.1 _ (List.mem_map_of_mem key hx)
      have h1 : ¬ less x y = true := fun h => bytesCompare_asymm hlt ((less_iff hl _ _).mp h)
      have h2 : less y x = true := (less_iff hl _ _).mpr hlt
      rw [if_neg h1, if_pos h2, ih hs2.2 hx]

theorem Partitions_Set_of_part {s : Stats} (hs : s.WF) {p : List Byte} {q : statsPartition}
    (h : s.part p = some q) (q1 : statsPartition) (hn : q1.name = p) :
    Stats.Partitions ⟨s.partitions.Set statsPartitionLess q1⟩ = s.Partitions := by
  apply keys_setList_of_mem statsPartitionLess_keyed q1 hs.1
  have := (part_isSome_iff s p).mp (by rw [h]; rfl)
  rw [hn]; exact this

theorem names_Set_of_event {q : statsPartition} (hq : q.WF) {e : List Byte} {ev : statsEvent}
    (h : q.event e = some ev) (ev1 : statsEvent) (hn : ev1.name = e) :
    (q.events.Set statsEventLess ev1).items.map (fun x => x.name) =
      q.events.items.map (fun x => x.name) := by
  apply keys_setList_of_mem statsEventLess_keyed ev1 hq.1
  have : e ∈ q.events.items.map (fun x => x.name) :=
    lookup_isSome_iff.mp (by rw [show lookup _ e q.events.items = some ev from h]; rfl)
  rw [hn]; exact this

theorem Set_part_self {s : Stats} (hs : s.WF) {p : List Byte} {q : statsPartition}
    (h : s.part p = some q) : (⟨s.partitions.Set statsPartitionLess q⟩ : Stats) = s := by
  have : BTreeG.setList statsPartitionLess q s.partitions.items = s.partitions.items :=
    setList_self statsPartitionLess_keyed hs.1 (lookup_mem h)
  show (⟨⟨BTreeG.setList statsPartitionLess q s.partitions.items⟩⟩ : Stats) = s
  rw [this]

theorem Set_event_self {q : statsPartition} (hq : q.WF) {e : List Byte} {ev : statsEvent}
    (h : q.event e = some ev) :
    ({ q with events := q.events.Set statsEventLess ev } : statsPartition) = q := by
  have : BTreeG.setList statsEventLess ev q.events.items = q.events.items :=
    setList_self statsEventLess_keyed hq.1 (lookup_mem h)
  show (⟨q.name, ⟨BTreeG.setList statsEventLess ev q.events.items⟩⟩ : statsPartition) = q
  rw [this]

/-- `Remove` of a value that is not a member leaves a well-formed store as it is. -/
theorem Remove_of_not_mem {s : Stats} (hs : s.WF) (p e : List Byte) (v : Nat)
    (hv : v ∉ (s.Values p e).1) : s.Remove p e v = (s, false) := by
  rw [Remove_eq]
  rw [Values_eq] at hv
  cases hp : s.part p with
  | none => rfl
  | some q =>
    rw [hp] at hv
    dsimp only at hv ⊢
    cases he : q.event e with
    | none => rfl
    | some ev =>
      rw [he] at hv
      have hv2 : v ∉ ev.values.vals := hv
      have h1 : ev.values.CheckedRemove v = (ev.values, false) := by
        unfold Bitmap.CheckedRemove Bitmap.Contains
        simp [hv2]
      show ((⟨s.partitions.Set statsPartitionLess
            { q with events :=
                q.events.Set statsEventLess ⟨ev.name, (ev.values.CheckedRemove v).1⟩ }⟩ : Stats),
            (ev.values.CheckedRemove v).2) = (s, false)
      rw [h1]
      show ((⟨s.partitions.Set statsPartitionLess
            { q with events := q.events.Set statsEventLess ev }⟩ : Stats), false) = (s, false)
      rw [Set_event_self (part_wf hs hp) he, Set_part_self hs hp]

/-- `RemovePartition` of an absent partition leaves the store as it is. -/
theorem RemovePartition_of_not_mem (s : Stats) (p : List Byte) (hp : p ∉ s.Partitions) :
    s.RemovePartition p = (s, false) := by
  have hnone : s.part p = none := (part_eq_none_iff s p).mpr hp
  unfold Stats.RemovePartition BTreeG.Delete
  have h2 : (BTreeG.deleteList statsPartitionLess (queryPartition (s2b p))
      s.partitions.items).2 = none := by
    rw [deleteList_snd statsPartitionLess_keyed]; exact hnone
  have h1 : (BTreeG.deleteList statsPartitionLess (queryPartition (s2b p))
      s.partitions.items).1 = s.partitions.items :=
    deleteList_of_none statsPartitionLess_keyed _ _ hnone
  simp only [h1, h2]
  rfl

/-- The partition nodes after `Remove`. -/
theorem part_Remove (s : Stats) (p e : List Byte) (v : Nat) (p1 : List Byte) :
    (s.Remove p e v).1.part p1 =
      match s.part p with
      | none => s.part p1
      | some q =>
        match q.event e with
        | none => s.part p1
        | some ev =>
          if p = p1 then
            some { q with events :=
              q.events.Set statsEventLess ⟨ev.name, (ev.values.CheckedRemove v).1⟩ }
          else s.part p1 := by
  rw [Remove_eq]
  cases hp : s.part p with
  | none => rfl
  | some q =>
    dsimp only
    cases he : q.event e with
    | none => rfl
    | some ev =>
      show Stats.part ⟨s.partitions.Set statsPartitionLess _⟩ p1 = _
      rw [part_Set]
      simp only [part_name hp]

/-! ## Claims on `Add`'s return value and on accumulation -/

/-- C1, evaluated on the code: after `Add("p","e",1)` on a fresh store the value 1 is a member
of the value set of "e", and a second `Add("p","e",1)` still returns true, where the claim
requires false. -/
theorem Add_member_returns_true :
    (exStore1.Values exP exE = ([1], true)) ∧ (exStore1.Add exP exE 1).2 = true := by
  decide

/-- C2, evaluated on the code: after `Add("p","msg:1",1)`, `Add("p","msg:1",2)`,
`Add("p","msg:2",2)` the values of "msg:1" are `[1]`, not `[1,2]`: the second call found the
event and did not insert. -/
theorem Add_existing_event_keeps_values :
    exStore2.Values exP exMsg1 = ([1], true) ∧ exStore2.Values exP exMsg1 ≠ ([1, 2], true) ∧
      exStore2.Values exP exMsg2 = ([2], true) := by
  decide

/-! ## `Remove` and `RemovePartition` -/

/-- The return value of `Remove`: whether the value was a member. -/
theorem Remove_snd (s : Stats) (p e : List Byte) (v : Nat) :
    (s.Remove p e v).2 = decide (v ∈ (s.Values p e).1) := by
  rw [Remove_eq, Values_eq]
  cases s.part p with
  | none => simp
  | some q =>
    dsimp only
    cases q.event e with
    | none => simp
    | some ev => exact CheckedRemove_snd _ _

/-- The values of every event after `Remove`. -/
theorem Values_Remove (s : Stats) (p e : List Byte) (v : Nat) (p1 e1 : List Byte) :
    (s.Remove p e v).1.Values p1 e1 =
      if p1 = p ∧ e1 = e then
        ((s.Values p e).1.filter (fun x => decide (x ≠ v)), (s.Values p e).2)
      else s.Values p1 e1 := by
  rw [Values_eq (s.Remove p e v).1, part_Remove, Values_eq s p e, Values_eq s p1 e1]
  cases hp : s.part p with
  | none =>
    dsimp only
    by_cases h : p1 = p ∧ e1 = e
    · rw [if_pos h, h.1, hp]; rfl
    · rw [if_neg h]
  | some q =>
    dsimp only
    cases he : q.event e with
    | none =>
      dsimp only
      by_cases h : p1 = p ∧ e1 = e
      · rw [if_pos h, h.1, hp]; dsimp only; rw [h.2, he]; rfl
      · rw [if_neg h]
    | some ev =>
      dsimp only
      by_cases h1 : p = p1
      · subst h1
        rw [if_pos rfl, hp]
        dsimp only
        rw [event_Set]
        have hn : ev.name = e := event_name he
        by_cases h2 : e1 = e
        · subst h2
          rw [if_pos hn, if_pos ⟨rfl, rfl⟩]
          dsimp only
          rw [CheckedRemove_vals]
        · have h3 : ¬ ev.name = e1 := fun h => h2 (h.symm.trans hn)
          have h4 : ¬ (p = p ∧ e1 = e) := fun h => h2 h.2
          rw [if_neg h3, if_neg h4]
      · have h4 : ¬ (p1 = p ∧ e1 = e) := fun h => h1 h.1.symm
        rw [if_neg h1, if_neg h4]

/-- Whether an event exists, in terms of the lists of names. -/
theorem Values_found_iff (s : Stats) (p e : List Byte) :
    (s.Values p e).2 = true ↔ p ∈ s.Partitions ∧ e ∈ (s.Events p).1 := by
  rw [Values_eq, Events_eq, ← part_isSome_iff]
  cases hp : s.part p with
  | none => simp
  | some q =>
    dsimp only
    have := @lookup_isSome_iff _ (fun x : statsEvent => x.name) e q.events.items
    cases he : q.event e with
    | none =>
      rw [show lookup _ e q.events.items = none from he] at this
      simp at this
      simpa using this
    | some ev =>
      rw [show lookup _ e q.events.items = some ev from he] at this
      simp at this
      simpa using this

theorem Values_not_found (s : Stats) (p e : List Byte) (h : ¬ (s.Values p e).2 = true) :
    s.Values p e = ([], false) := by
  rw [Values_eq] at h ⊢
  cases hp : s.part p with
  | none => rfl
  | some q =>
    rw [hp] at h
    dsimp only at h ⊢
    cases he : q.event e with
    | none => rfl
    | some ev => rw [he] at h; exact absurd rfl h

/-- C6: `Remove(p, e, v)` returns false when partition `p` or event `e` of `p` does not
exist; when both exist it returns true exactly when `v` was a member of the event's values,
and afterwards `Values(p, e)` is the previous list without `v`, of which `v` is no member. -/
theorem Remove_spec (s : Stats) (p e : List Byte) (v : Nat) :
    ((p ∉ s.Partitions ∨ e ∉ (s.Events p).1) → (s.Remove p e v).2 = false) ∧
    (p ∈ s.Partitions → e ∈ (s.Events p).1 →
      ((s.Remove p e v).2 = true ↔ v ∈ (s.Values p e).1) ∧
      (s.Remove p e v).1.Values p e =
        ((s.Values p e).1.filter (fun x => decide (x ≠ v)), true) ∧
      v ∉ ((s.Remove p e v).1.Values p e).1) := by
  refine ⟨?_, ?_⟩
  · intro h
    have hnf : ¬ (s.Values p e).2 = true := by
      rw [Values_found_iff]
      rintro ⟨h1, h2⟩
      rcases h with h | h
      · exact h h1
      · exact h h2
    rw [Remove_snd, Values_not_found s p e hnf]
    simp
  · intro h1 h2
    have hf : (s.Values p e).2 = true := (Values_found_iff s p e).mpr ⟨h1, h2⟩
    have hV := Values_Remove s p e v p e
    rw [if_pos ⟨rfl, rfl⟩, hf] at hV
    refine ⟨?_, hV, ?_⟩
    · rw [Remove_snd]; simp
    · rw [hV]; simp

/-- C6 at a concrete store: on the store holding `p/e = {1}`, removing 1 from the existing
event and removing from a missing event. -/
theorem Remove_spec_witness :
    (exStore1.Remove exP exMsg1 1).2 = false ∧
    ((exStore1.Remove exP exE 1).2 = true ↔ 1 ∈ (exStore1.Values exP exE).1) ∧
    (exStore1.Remove exP exE 1).1.Values exP exE = ([], true) :=
  ⟨(Remove_spec exStore1 exP exMsg1 1).1 (Or.inr (by decide)),
   ((Remove_spec exStore1 exP exE 1).2 (by decide) (by decide)).1,
   ((Remove_spec exStore1 exP exE 1).2 (by decide) (by decide)).2.1⟩

theorem ValuesCount_eq_Values (s : Stats) (p e : List Byte) :
    s.ValuesCount p e = ((s.Values p e).1.length, (s.Values p e).2) := by
  rw [ValuesCount_eq, Values_eq]
  cases s.part p with
  | none => rfl
  | some q =>
    dsimp only
    cases q.event e with
    | none => rfl
    | some ev => rfl

theorem EventsCount_eq_Events (s : Stats) (p : List Byte) :
    s.EventsCount p = ((s.Events p).1.length, (s.Events p).2) := by
  rw [EventsCount_eq, Events_eq]
  cases s.part p with
  | none => rfl
  | some q => simp

/-- The partition nodes after `RemovePartition`, in a well-formed store. -/
theorem part_RemovePartition {s : Stats} (hs : s.WF) (p p1 : List Byte) :
    (s.RemovePartition p).1.part p1 = if p1 = p then none else s.part p1 :=
  lookup_deleteList statsPartitionLess_keyed (queryPartition (s2b p)) hs.1 p1

theorem RemovePartition_snd (s : Stats) (p : List Byte) :
    (s.RemovePartition p).2 = (s.part p).isSome := by
  show (BTreeG.deleteList statsPartitionLess (queryPartition (s2b p))
    s.partitions.items).2.isSome = _
  rw [deleteList_snd statsPartitionLess_keyed]
  rfl

theorem Partitions_RemovePartition {s : Stats} (hs : s.WF) (p : List Byte) :
    (s.RemovePartition p).1.Partitions = s.Partitions.filter (fun n => decide (n ≠ p)) :=
  keys_deleteList statsPartitionLess_keyed (queryPartition (s2b p)) hs.1

/-- C7: in a well-formed store `RemovePartition(p)` returns true exactly when `p` was in
`Partitions()`; afterwards `Partitions()` is the previous list without `p`, every query on `p`
reports not-found, and `Events(q)` and `Values(q, e)` are unchanged for every other `q`. -/
theorem RemovePartition_spec (s : Stats) (hs : s.WF) (p : List Byte) :
    ((s.RemovePartition p).2 = true ↔ p ∈ s.Partitions) ∧
    (s.RemovePartition p).1.Partitions = s.Partitions.filter (fun n => decide (n ≠ p)) ∧
    p ∉ (s.RemovePartition p).1.Partitions ∧
    (s.RemovePartition p).1.Events p = ([], false) ∧
    (s.RemovePartition p).1.EventsCount p = (0, false) ∧
    (∀ e, (s.RemovePartition p).1.Values p e = ([], false) ∧
      (s.RemovePartition p).1.ValuesCount p e = (0, false)) ∧
    (∀ q, q ≠ p → (s.RemovePartition p).1.Events q = s.Events q ∧
      ∀ e, (s.RemovePartition p).1.Values q e = s.Values q e) := by
  have hnone : (s.RemovePartition p).1.part p = none := by
    rw [part_RemovePartition hs, if_pos rfl]
  have hE : (s.RemovePartition p).1.Events p = ([], false) := by
    rw [Events_eq, hnone]
  have hV : ∀ e, (s.RemovePartition p).1.Values p e = ([], false) := by
    intro e; rw [Values_eq, hnone]
  refine ⟨?_, Partitions_RemovePartition hs p, ?_, hE, ?_, ?_, ?_⟩
  · rw [RemovePartition_snd]; exact part_isSome_iff s p
  · exact (part_eq_none_iff _ p).mp hnone
  · rw [EventsCount_eq_Events, hE]; rfl
  · intro e
    refine ⟨hV e, ?_⟩
    rw [ValuesCount_eq_Values, hV e]; rfl
  · intro q hq
    have hpart : (s.RemovePartition p).1.part q = s.part q := by
      rw [part_RemovePartition hs, if_neg hq]
    refine ⟨?_, fun e => ?_⟩
    · rw [Events_eq, Events_eq, hpart]
    · rw [Values_eq, Values_eq, hpart]

/-- C7 at a concrete store: removing the only partition of the store holding `p/e = {1}`. -/
theorem RemovePartition_spec_witness :
    exStore1.WF ∧ (exStore1.RemovePartition exP).1.Partitions = [] ∧
      (exStore1.RemovePartition exP).1.Events exP = ([], false) :=
  ⟨by decide,
   (RemovePartition_spec exStore1 (by decide) exP).2.1.trans (by decide),
   (RemovePartition_spec exStore1 (by decide) exP).2.2.2.1⟩

/-- C8: in a well-formed store, `Remove(p, e, v)` with `v` not a member of event `e` of
partition `p` (also when `p` or `e` does not exist) and `RemovePartition(p)` with `p` absent
return false and leave `Partitions()`, every `Events(q)` and every `Values(q, f)` as before. -/
theorem removal_of_absent_unchanged (s : Stats) (hs : s.WF) (p e : List Byte) (v : Nat) :
    (v ∉ (s.Values p e).1 →
      (s.Remove p e v).2 = false ∧
      (s.Remove p e v).1.Partitions = s.Partitions ∧
      (∀ q, (s.Remove p e v).1.Events q = s.Events q) ∧
      (∀ q f, (s.Remove p e v).1.Values q f = s.Values q f)) ∧
    (p ∉ s.Partitions →
      (s.RemovePartition p).2 = false ∧
      (s.RemovePartition p).1.Partitions = s.Partitions ∧
      (∀ q, (s.RemovePartition p).1.Events q = s.Events q) ∧
      (∀ q f, (s.RemovePartition p).1.Values q f = s.Values q f)) := by
  refine ⟨fun hv => ?_, fun hp => ?_⟩
  · rw [Remove_of_not_mem hs p e v hv]
    exact ⟨rfl, rfl, fun _ => rfl, fun _ _ => rfl⟩
  · rw [RemovePartition_of_not_mem s p hp]
    exact ⟨rfl, rfl, fun _ => rfl, fun _ _ => rfl⟩

/-- C8 at a concrete store: removing the absent value 2 and the absent partition "e" from the
store holding `p/e = {1}`. -/
theorem removal_of_absent_unchanged_witness :
    exStore1.WF ∧
    ((exStore1.Remove exP exE 2).2 = false ∧
      (exStore1.Remove exP exE 2).1.Partitions = exStore1.Partitions) ∧
    ((exStore1.RemovePartition exE).2 = false ∧
      (exStore1.RemovePartition exE).1.Partitions = exStore1.Partitions) :=
  ⟨by decide,
   ⟨((removal_of_absent_unchanged exStore1 (by decide) exP exE 2).1 (by decide)).1,
    ((removal_of_absent_unchanged exStore1 (by decide) exP exE 2).1 (by decide)).2.1⟩,
   ⟨((removal_of_absent_unchanged exStore1 (by decide) exE exE 2).2 (by decide)).1,
    ((removal_of_absent_unchanged exStore1 (by decide) exE exE 2).2 (by decide)).2.1⟩⟩

/-- `Remove` keeps the list of partitions of a well-formed store. -/
theorem Partitions_Remove {s : Stats} (hs : s.WF) (p e : List Byte) (v : Nat) :
    (s.Remove p e v).1.Partitions = s.Partitions := by
  rw [Remove_eq]
  cases hp : s.part p with
  | none => rfl
  | some q =>
    dsimp only
    cases he : q.event e with
    | none => rfl
    | some ev => exact Partitions_Set_of_part hs hp _ (@part_name s p q hp)

/-- `Remove` keeps the list of events of every partition of a well-formed store. -/
theorem Events_Remove {s : Stats} (hs : s.WF) (p e : List Byte) (v : Nat) (q : List Byte) :
    (s.Remove p e v).1.Events q = s.Events q := by
  rw [Events_eq, Events_eq, part_Remove]
  cases hp : s.part p with
  | none => rfl
  | some p0 =>
    dsimp only
    cases he : p0.event e with
    | none => rfl
    | some ev =>
      dsimp only
      by_cases h : p = q
      · subst h
        rw [if_pos rfl, hp]
        dsimp only
        rw [names_Set_of_event (part_wf hs hp) he ⟨ev.name, (ev.values.CheckedRemove v).1⟩
          (@event_name p0 e ev he)]
      · rw [if_neg h]

/-- C9: in a well-formed store `Remove(p, e, v)` changes neither `Partitions()` nor any
`Events(q)`; when it removes the only value of an event, the event still exists with
`ValuesCount(p, e) = (0, true)` and `Values(p, e) = ([], true)`; so on a fresh store
`Add("p","e",1)` then `Remove("p","e",1)` gives `ValuesCount("p","e") = (0, true)`. -/
theorem Remove_retains_event (s : Stats) (hs : s.WF) (p e : List Byte) (v : Nat) :
    (s.Remove p e v).1.Partitions = s.Partitions ∧
    (∀ q, (s.Remove p e v).1.Events q = s.Events q) ∧
    (s.Values p e = ([v], true) →
      (s.Remove p e v).1.ValuesCount p e = (0, true) ∧
      (s.Remove p e v).1.Values p e = ([], true)) ∧
    ((New.Add exP exE 1).1.Remove exP exE 1).1.ValuesCount exP exE = (0, true) := by
  refine ⟨Partitions_Remove hs p e v, Events_Remove hs p e v, ?_, by decide⟩
  intro h
  have hV : (s.Remove p e v).1.Values p e = ([], true) := by
    rw [Values_Remove, if_pos ⟨rfl, rfl⟩, h]
    simp
  refine ⟨?_, hV⟩
  rw [ValuesCount_eq_Values, hV]
  rfl

/-- C9 at a concrete store: removing the only value of `p/e` from the store holding
`p/e = {1}`. -/
theorem Remove_retains_event_witness :
    exStore1.WF ∧ exStore1.Values exP exE = ([1], true) ∧
      (exStore1.Remove exP exE 1).1.Events exP = exStore1.Events exP ∧
      (exStore1.Remove exP exE 1).1.ValuesCount exP exE = (0, true) :=
  ⟨by decide, by decide,
   (Remove_retains_event exStore1 (by decide) exP exE 1).2.1 exP,
   ((Remove_retains_event exStore1 (by decide) exP exE 1).2.2.1 (by decide)).1⟩

/-- C10, evaluated on the code: three identical calls `Add("p","e",1)` on a fresh store all
return true, where the claim requires the second and third to return false. -/
theorem Add_identical_calls_return_true :
    (New.Add exP exE 1).2 = true ∧
    ((New.Add exP exE 1).1.Add exP exE 1).2 = true ∧
    (((New.Add exP exE 1).1.Add exP exE 1).1.Add exP exE 1).2 = true := by
  decide

/-! ## The representation invariant is preserved -/

theorem wf_Set_event {q : statsPartition} (hq : q.WF) (ev1 : statsEvent)
    (h1 : ev1.values.WF) :
    statsPartition.WF { q with events := q.events.Set statsEventLess ev1 } := by
  refine ⟨ascending_setList statsEventLess_keyed ev1 hq.1, ?_⟩
  intro y hy
  rcases mem_setList hy with rfl | hy
  · exact h1
  · exact hq.2 y hy

theorem wf_Set_partition {s : Stats} (hs : s.WF) (q1 : statsPartition) (h1 : q1.WF) :
    Stats.WF ⟨s.partitions.Set statsPartitionLess q1⟩ := by
  refine ⟨ascending_setList statsPartitionLess_keyed q1 hs.1, ?_⟩
  intro y hy
  rcases mem_setList hy with rfl | hy
  · exact h1
  · exact hs.2 y hy

theorem New_wf : New.WF := by decide

theorem singleton_wf (v : Nat) : Bitmap.WF ⟨[v]⟩ := by
  simp [Bitmap.WF]

theorem Add_wf {s : Stats} (hs : s.WF) (p e : List Byte) (v : Nat) : (s.Add p e v).1.WF := by
  rw [Add_eq]
  cases hp : s.part p with
  | none =>
    apply wf_Set_partition hs
    refine ⟨by simp [Ascending], ?_⟩
    intro y hy
    rw [List.mem_singleton.mp hy]
    exact singleton_wf v
  | some q =>
    dsimp only
    cases he : q.event e with
    | some ev => exact hs
    | none =>
      apply wf_Set_partition hs
      exact wf_Set_event (part_wf hs hp) _ (singleton_wf v)

theorem Remove_wf {s : Stats} (hs : s.WF) (p e : List Byte) (v : Nat) :
    (s.Remove p e v).1.WF := by
  rw [Remove_eq]
  cases hp : s.part p with
  | none => exact hs
  | some q =>
    dsimp only
    cases he : q.event e with
    | none => exact hs
    | some ev =>
      apply wf_Set_partition hs
      apply wf_Set_event (part_wf hs hp)
      exact CheckedRemove_wf ((part_wf hs hp).2 ev (lookup_mem he)) v

theorem RemovePartition_wf {s : Stats} (hs : s.WF) (p : List Byte) :
    (s.RemovePartition p).1.WF := by
  have hsub : List.Sublist (s.RemovePartition p).1.partitions.items s.partitions.items :=
    deleteList_sublist _ _
  refine ⟨List.Pairwise.sublist (hsub.map _) hs.1, ?_⟩
  intro y hy
  exact hs.2 y (hsub.subset hy)

theorem replayValues_wf {s : Stats} (hs : s.WF) (p e : List Byte) (vs : List Nat) :
    (s.replayValues p e vs).WF := by
  induction vs generalizing s with
  | nil => exact hs
  | cons v vs ih => exact ih (Add_wf hs p e v)

theorem replayEvents_wf {s : Stats} (hs : s.WF) (p : List Byte)
    (evs : List (Option jsonEventsRepr)) : (s.replayEvents p evs).1.WF := by
  induction evs generalizing s with
  | nil => exact hs
  | cons ev evs ih =>
    cases ev with
    | none => exact hs
    | some ev => exact ih (replayValues_wf hs p ev.Name ev.Value)

theorem replayPartitions_wf {s : Stats} (hs : s.WF)
    (ps : List (List Byte × List (Option jsonEventsRepr))) : (s.replayPartitions ps).1.WF := by
  induction ps generalizing s with
  | nil => exact hs
  | cons x xs ih =>
    obtain ⟨p, evs⟩ := x
    rw [Stats.replayPartitions]
    split
    · exact ih (replayEvents_wf hs p evs)
    · exact replayEvents_wf hs p evs

theorem Deserialize_wf {s : Stats} (hs : s.WF)
    (unmarshal : List Byte → Except String jsonStatsRepr) (data : List Byte) :
    (s.Deserialize unmarshal data).1.WF := by
  unfold Stats.Deserialize
  cases unmarshal data with
  | error err => exact hs
  | ok obj =>
    dsimp only
    split
    · exact replayPartitions_wf hs _
    · exact replayPartitions_wf hs _

theorem reachable_wf {s : Stats} (h : Reachable s) : s.WF := by
  induction h with
  | new => exact New_wf
  | add p e v _ ih => exact Add_wf ih p e v
  | remove p e v _ ih => exact Remove_wf ih p e v
  | removePartition p _ ih => exact RemovePartition_wf ih p
  | deserialize unmarshal data _ ih => exact Deserialize_wf ih unmarshal data

theorem ascending_nodup {l : List (List Byte)} (h : Ascending l) : l.Nodup :=
  List.Pairwise.imp (fun hab => bytesCompare_ne hab) h

theorem Events_ascending {s : Stats} (hs : s.WF) (p : List Byte) :
    Ascending (s.Events p).1 := by
  rw [Events_eq]
  cases hp : s.part p with
  | none => exact List.Pairwise.nil
  | some q => exact (part_wf hs hp).1

theorem Values_ascending {s : Stats} (hs : s.WF) (p e : List Byte) :
    (s.Values p e).1.Pairwise (fun x y => x < y) := by
  rw [Values_eq]
  cases hp : s.part p with
  | none => exact List.Pairwise.nil
  | some q =>
    dsimp only
    cases he : q.event e with
    | none => exact List.Pairwise.nil
    | some ev => exact (part_wf hs hp).2 ev (lookup_mem he)

/-- C5: in every store reachable from `New()` by `Add`, `Remove`, `RemovePartition` and
`Deserialize`, `Partitions()` is strictly ascending in the order of `bytes.Compare` (hence
without duplicates), `Events(p)` is strictly ascending in that order for every `p`, and
`Values(p, e)` is strictly ascending numerically for every `p` and `e`. -/
theorem reachable_ordered (s : Stats) (h : Reachable s) :
    Ascending s.Partitions ∧ s.Partitions.Nodup ∧
    (∀ p, Ascending (s.Events p).1) ∧
    (∀ p e, (s.Values p e).1.Pairwise (fun x y => x < y)) :=
  ⟨(reachable_wf h).1, ascending_nodup (reachable_wf h).1, Events_ascending (reachable_wf h),
    Values_ascending (reachable_wf h)⟩

/-- C5 at a concrete store: the store built by three `Add` calls is reachable and its lists
are ascending. -/
theorem reachable_ordered_witness :
    Reachable exStore2 ∧ Ascending exStore2.Partitions ∧
      Ascending (exStore2.Events exP).1 :=
  ⟨Reachable.add _ _ _ (Reachable.add _ _ _ (Reachable.add _ _ _ Reachable.new)),
   (reachable_ordered exStore2
     (Reachable.add _ _ _ (Reachable.add _ _ _ (Reachable.add _ _ _ Reachable.new)))).1,
   (reachable_ordered exStore2
     (Reachable.add _ _ _ (Reachable.add _ _ _ (Reachable.add _ _ _ Reachable.new)))).2.2.1
     exP⟩

/-! ## The prefix scan -/

theorem bytesCompare_nil_right (n : List Byte) : ¬ bytesCompare n [] < 0 := by
  cases n <;> simp [bytesCompare]

/-- The names between `pre` and `pre ++ [255]` in the order of `bytes.Compare` are the names
that start with `pre` and do not continue with the byte 255. -/
theorem between_sentinel_iff (pre n : List Byte) :
    (¬ bytesCompare n pre < 0 ∧ bytesCompare n (pre ++ [255]) < 0) ↔
      (pre <+: n ∧ ¬ (pre ++ [255]) <+: n) := by
  induction pre generalizing n with
  | nil =>
    cases n with
    | nil => simp [bytesCompare]
    | cons b t =>
      have hb : b ≤ 255 := Fin.le_last b
      simp only [List.nil_append, bytesCompare, List.cons_prefix_cons, List.nil_prefix,
        and_true, true_and]
      by_cases h1 : b < 255
      · have : (255 : Byte) ≠ b := fun h => absurd (h ▸ h1) (lt_irrefl _)
        simp [h1, this]
      · have h2 : b = 255 := le_antisymm hb (not_lt.mp h1)
        subst h2
        have := bytesCompare_nil_right t
        simp only [lt_irrefl, if_false, not_true_eq_false, iff_false]
        omega
  | cons c cs ih =>
    cases n with
    | nil => simp [bytesCompare]
    | cons b t =>
      simp only [List.cons_append, bytesCompare, List.cons_prefix_cons]
      by_cases h1 : b < c
      · have : c ≠ b := fun h => absurd (h ▸ h1) (lt_irrefl _)
        simp [h1, this]
      · by_cases h2 : c < b
        · have : c ≠ b := fun h => absurd (h ▸ h2) (lt_irrefl _)
          simp [h1, h2, this]
        · have hcb : c = b := le_antisymm (not_lt.mp h1) (not_lt.mp h2)
          subst hcb
          simp only [lt_irrefl, if_false, true_and]
          exact ih t

theorem takeWhile_eq_filter {α : Type} {r : α → α → Prop} {f : α → Bool} {l : List α}
    (hl : l.Pairwise r) (hf : ∀ a b, r a b → f b = true → f a = true) :
    l.takeWhile f = l.filter f := by
  induction l with
  | nil => rfl
  | cons x xs ih =>
    rw [List.pairwise_cons] at hl
    rw [List.takeWhile_cons, List.filter_cons]
    by_cases hx : f x = true
    · rw [if_pos hx, if_pos hx, ih hl.2]
    · rw [if_neg hx, if_neg hx]
      symm
      rw [List.filter_eq_nil_iff]
      intro y hy hfy
      exact hx (hf x y (hl.1 y hy) hfy)

theorem dropWhile_eq_filter {α : Type} {r : α → α → Prop} {f : α → Bool} {l : List α}
    (hl : l.Pairwise r) (hf : ∀ a b, r a b → f b = true → f a = true) :
    l.dropWhile f = l.filter (fun x => !f x) := by
  induction l with
  | nil => rfl
  | cons x xs ih =>
    rw [List.pairwise_cons] at hl
    rw [List.dropWhile_cons, List.filter_cons]
    by_cases hx : f x = true
    · have : ¬ (!f x) = true := by simp [hx]
      rw [if_pos hx, if_neg this, ih hl.2]
    · have h2 : (!f x) = true := by simpa using hx
      rw [if_neg hx, if_pos h2]
      congr 1
      symm
      rw [List.filter_eq_self]
      intro y hy
      have : ¬ f y = true := fun hfy => hx (hf x y (hl.1 y hy) hfy)
      simpa using this

theorem iterate_prefixIter (eventsEnd : statsEvent) (acc : List (List Byte))
    (l : List statsEvent) :
    BTreeG.iterate (Stats.prefixIter eventsEnd) acc l =
      acc ++ (l.takeWhile (fun x => statsEventLess x eventsEnd)).map (fun x => x.name) := by
  induction l generalizing acc with
  | nil => simp [BTreeG.iterate]
  | cons x xs ih =>
    rw [BTreeG.iterate, List.takeWhile_cons]
    by_cases hx : statsEventLess x eventsEnd = true
    · have h1 : Stats.prefixIter eventsEnd acc x = (acc ++ [x.name], true) := by
        simp [Stats.prefixIter, hx]
      rw [h1, if_pos rfl, ih, if_pos hx]
      simp
    · have h1 : Stats.prefixIter eventsEnd acc x = (acc, false) := by
        simp [Stats.prefixIter, hx]
      rw [h1, if_neg (by simp), if_neg hx]
      simp

/-- What the scan returns in a well-formed store: the names that start with the prefix and
do not continue with the byte 255, in the order of the index. -/
theorem EventsByPrefix_eq {s : Stats} (hs : s.WF) (p pre : List Byte) :
    s.EventsByPrefix p pre =
      match s.part p with
      | none => ([], false)
      | some q =>
        ((q.events.items.map (fun x => x.name)).filter
          (fun n => decide (pre <+: n ∧ ¬ (pre ++ [255]) <+: n)), true) := by
  unfold Stats.EventsByPrefix
  rw [Get_partition]
  cases hp : s.part p with
  | none => rfl
  | some q =>
    dsimp only
    congr 1
    unfold BTreeG.Ascend
    rw [iterate_prefixIter, List.nil_append]
    have hq : q.events.items.Pairwise
        (fun a b => bytesCompare a.name b.name < 0) :=
      List.pairwise_map.mp (part_wf hs hp).1
    have hdown : ∀ (k : statsEvent) (a b : statsEvent), bytesCompare a.name b.name < 0 →
        statsEventLess b k = true → statsEventLess a k = true := by
      intro k a b hab hb
      unfold statsEventLess at hb ⊢
      simp only [decide_eq_true_eq] at hb ⊢
      exact bytesCompare_trans hab hb
    rw [dropWhile_eq_filter hq (hdown (queryEvent (s2b pre))),
      takeWhile_eq_filter (List.Pairwise.filter _ hq) (hdown (queryEvent (s2b pre ++ [255]))),
      List.filter_filter, List.filter_map]
    congr 1
    apply List.filter_congr
    intro x _
    have h := between_sentinel_iff pre x.name
    simp only [Function.comp, statsEventLess, queryEvent, s2b]
    by_cases h1 : bytesCompare x.name pre < 0
    · have h2 : ¬ (pre <+: x.name ∧ ¬ (pre ++ [255]) <+: x.name) := by
        rw [← h]; exact fun hh => hh.1 h1
      simp [h1, h2]
    · by_cases h3 : bytesCompare x.name (pre ++ [255]) < 0
      · have h2 : pre <+: x.name ∧ ¬ (pre ++ [255]) <+: x.name := h.mp ⟨h1, h3⟩
        simp [h1, h3, h2.1, h2.2]
      · have h2 : ¬ (pre <+: x.name ∧ ¬ (pre ++ [255]) <+: x.name) := by
          rw [← h]; exact fun hh => h3 hh.2
        simp only [h1, h3, decide_False, Bool.not_false, Bool.and_true, h2]

/-- C4 fails on the code: in the store holding the events "a\xff" and "ab" of partition "p",
the scan for the prefix "a" returns only "ab", although "a\xff" starts with "a". -/
theorem EventsByPrefix_omits_name_after_sentinel :
    exStoreFF.WF ∧ (exStoreFF.Events exP).1 = [exAB, exAFF] ∧ exA <+: exAFF ∧
      exStoreFF.EventsByPrefix exP exA = ([exAB], true) ∧
      exStoreFF.EventsByPrefix exP exA ≠
        ((exStoreFF.Events exP).1.filter (fun n => decide (exA <+: n)), true) := by
  decide

/-- C4, amended: in a well-formed store with partition `p`, `EventsByPrefix(p, prefix)`
returns `(names, true)` where `names` is exactly the list, in the strictly ascending order of
`Events(p)`, of the event names of `p` that start with `prefix` and do not continue it with
the byte 0xFF; so every name in it is an event name of `p` that starts with `prefix`, every
event name of `p` that starts with `prefix` and does not continue it with 0xFF is in it, and
when no event name of `p` continues `prefix` with 0xFF it is exactly the list of the event
names of `p` that start with `prefix`. -/
theorem EventsByPrefix_spec (s : Stats) (hs : s.WF) (p pre : List Byte)
    (hp : p ∈ s.Partitions) :
    s.EventsByPrefix p pre =
      ((s.Events p).1.filter
        (fun n => decide (pre <+: n ∧ ¬ (pre ++ [255]) <+: n)), true) ∧
    (s.EventsByPrefix p pre).2 = true ∧
    Ascending (s.EventsByPrefix p pre).1 ∧
    (∀ n ∈ (s.EventsByPrefix p pre).1, n ∈ (s.Events p).1 ∧ pre <+: n) ∧
    (∀ n ∈ (s.Events p).1, pre <+: n → ¬ (pre ++ [255]) <+: n →
      n ∈ (s.EventsByPrefix p pre).1) ∧
    ((∀ n ∈ (s.Events p).1, ¬ (pre ++ [255]) <+: n) →
      s.EventsByPrefix p pre =
        ((s.Events p).1.filter (fun n => decide (pre <+: n)), true)) := by
  rw [EventsByPrefix_eq hs, Events_eq]
  cases hq : s.part p with
  | none => exact absurd hp ((part_eq_none_iff s p).mp hq)
  | some q =>
    dsimp only
    refine ⟨rfl, rfl, List.Pairwise.filter _ (part_wf hs hq).1, ?_, ?_, ?_⟩
    · intro n hn
      rw [List.mem_filter] at hn
      exact ⟨hn.1, (of_decide_eq_true hn.2).1⟩
    · intro n hn h1 h2
      rw [List.mem_filter]
      exact ⟨hn, decide_eq_true ⟨h1, h2⟩⟩
    · intro hno
      congr 1
      apply List.filter_congr
      intro n hn
      have := hno n hn
      simp [this]

/-- C4, amended, at concrete stores: the scan for "a" in the store holding the events "ab"
and "a\xff" of partition "p", and the scan for "msg:" in the store holding the events
"msg:1" and "msg:2" of partition "p". -/
theorem EventsByPrefix_spec_witness :
    exStoreFF.WF ∧ exP ∈ exStoreFF.Partitions ∧
      exStoreFF.EventsByPrefix exP exA = ([exAB], true) ∧
    exStore2.WF ∧ exP ∈ exStore2.Partitions ∧
      exStore2.EventsByPrefix exP [109, 115, 103, 58] = ([exMsg1, exMsg2], true) :=
  ⟨by decide, by decide,
   (EventsByPrefix_spec exStoreFF (by decide) exP exA (by decide)).1.trans (by decide),
   by decide, by decide,
   ((EventsByPrefix_spec exStore2 (by decide) exP [109, 115, 103, 58]
     (by decide)).2.2.2.2.2 (by decide)).trans (by decide)⟩

/-! ## What `Add` does -/

/-- The partition nodes after `Add`. -/
theorem part_Add (s : Stats) (p e : List Byte) (v : Nat) (p1 : List Byte) :
    (s.Add p e v).1.part p1 =
      match s.part p with
      | none => if p = p1 then some ⟨p, ⟨[⟨e, ⟨[v]⟩⟩]⟩⟩ else s.part p1
      | some q =>
        match q.event e with
        | some _ => s.part p1
        | none =>
          if p = p1 then
            some { q with events := q.events.Set statsEventLess ⟨e, ⟨[v]⟩⟩ }
          else s.part p1 := by
  rw [Add_eq]
  cases hp : s.part p with
  | none =>
    show Stats.part ⟨s.partitions.Set statsPartitionLess _⟩ p1 = _
    rw [part_Set]
  | some q =>
    dsimp only
    cases he : q.event e with
    | some ev => rfl
    | none =>
      show Stats.part ⟨s.partitions.Set statsPartitionLess _⟩ p1 = _
      rw [part_Set]
      simp only [part_name hp]

/-- The values of every event after `Add`: an event that existed keeps its values, a new
event holds the added value, every other event is as before. -/
theorem Values_Add (s : Stats) (p e : List Byte) (v : Nat) (p1 e1 : List Byte) :
    (s.Add p e v).1.Values p1 e1 =
      if p1 = p ∧ e1 = e then
        (if (s.Values p e).2 = true then s.Values p e else ([v], true))
      else s.Values p1 e1 := by
  rw [Values_eq (s.Add p e v).1, part_Add, Values_eq s p e, Values_eq s p1 e1]
  cases hp : s.part p with
  | none =>
    dsimp only
    by_cases h1 : p = p1
    · subst h1
      rw [if_pos rfl, hp]
      dsimp only
      show (match lookup (fun x : statsEvent => x.name) e1 [⟨e, ⟨[v]⟩⟩] with
        | none => ([], false)
        | some ev => (ev.values.vals, true)) = _
      rw [lookup_cons, lookup_nil]
      by_cases h2 : e = e1
      · subst h2
        simp
      · have h3 : ¬ (p = p ∧ e1 = e) := fun h => h2 h.2.symm
        rw [if_neg h2, if_neg h3]
    · have h3 : ¬ (p1 = p ∧ e1 = e) := fun h => h1 h.1.symm
      rw [if_neg h1, if_neg h3]
  | some q =>
    dsimp only
    cases he : q.event e with
    | some ev =>
      dsimp only
      by_cases h : p1 = p ∧ e1 = e
      · rw [if_pos h, h.1, hp]
        dsimp only
        rw [h.2, he]
        simp
      · rw [if_neg h]
    | none =>
      dsimp only
      by_cases h1 : p = p1
      · subst h1
        rw [if_pos rfl, hp]
        dsimp only
        rw [event_Set]
        by_cases h2 : e = e1
        · subst h2
          simp
        · have h3 : ¬ (p = p ∧ e1 = e) := fun h => h2 h.2.symm
          rw [if_neg h2, if_neg h3]
      · have h3 : ¬ (p1 = p ∧ e1 = e) := fun h => h1 h.1.symm
        rw [if_neg h1, if_neg h3]

/-- The partitions after `Add`: the previous ones and the addressed one. -/
theorem mem_Partitions_Add (s : Stats) (p e : List Byte) (v : Nat) (p1 : List Byte) :
    p1 ∈ (s.Add p e v).1.Partitions ↔ p1 = p ∨ p1 ∈ s.Partitions := by
  rw [← part_isSome_iff, ← part_isSome_iff, part_Add]
  cases hp : s.part p with
  | none =>
    dsimp only
    by_cases h : p = p1
    · simp [h]
    · have : ¬ p1 = p := fun h2 => h h2.symm
      simp [h, this]
  | some q =>
    have hp1 : p1 = p → (s.part p1).isSome = true := fun h => by rw [h, hp]; rfl
    dsimp only
    cases he : q.event e with
    | some ev =>
      dsimp only
      constructor
      · exact Or.inr
      · rintro (h | h)
        · exact hp1 h
        · exact h
    | none =>
      dsimp only
      by_cases h : p = p1
      · simp [h]
      · have : ¬ p1 = p := fun h2 => h h2.symm
        simp [h, this]

/-! ## The replay of `Deserialize` as a sequence of `Add` calls -/

theorem addAll_append (s : Stats) (a b : List (List Byte × List Byte × Nat)) :
    s.addAll (a ++ b) = (s.addAll a).addAll b := by
  induction a generalizing s with
  | nil => rfl
  | cons t ts ih => exact ih _

theorem replayValues_eq (s : Stats) (p e : List Byte) (vs : List Nat) :
    s.replayValues p e vs = s.addAll (vs.map (fun v => (p, e, v))) := by
  induction vs generalizing s with
  | nil => rfl
  | cons v vs ih => exact ih _

theorem replayEvents_eq (s : Stats) (p : List Byte) (evs : List (Option jsonEventsRepr))
    (h : ∀ x ∈ evs, x ≠ none) :
    s.replayEvents p evs = (s.addAll (eventTriples p evs), true) := by
  induction evs generalizing s with
  | nil => rfl
  | cons x xs ih =>
    cases x with
    | none => exact absurd rfl (h none (List.mem_cons_self _ _))
    | some ev =>
      rw [Stats.replayEvents, eventTriples, addAll_append, ← replayValues_eq]
      exact ih _ (fun x hx => h x (List.mem_cons_of_mem _ hx))

theorem replayPartitions_eq (s : Stats)
    (ps : List (List Byte × List (Option jsonEventsRepr)))
    (h : ∀ entry ∈ ps, ∀ x ∈ entry.2, x ≠ none) :
    s.replayPartitions ps = (s.addAll (reprTriples ps), true) := by
  induction ps generalizing s with
  | nil => rfl
  | cons entry rest ih =>
    obtain ⟨p, evs⟩ := entry
    have h1 := replayEvents_eq s p evs (h (p, evs) (List.mem_cons_self _ _))
    rw [Stats.replayPartitions, h1, if_pos rfl, reprTriples, addAll_append]
    exact ih _ (fun entry he => h entry (List.mem_cons_of_mem _ he))

theorem mem_eventTriples (p : List Byte) (evs : List (Option jsonEventsRepr))
    (p1 e1 : List Byte) (v1 : Nat) :
    (p1, e1, v1) ∈ eventTriples p evs ↔
      p1 = p ∧ ∃ ev, some ev ∈ evs ∧ ev.Name = e1 ∧ v1 ∈ ev.Value := by
  induction evs with
  | nil => simp [eventTriples]
  | cons x xs ih =>
    cases x with
    | none =>
      rw [eventTriples, ih]
      simp
    | some ev0 =>
      rw [eventTriples, List.mem_append, ih]
      simp only [List.mem_map, Prod.mk.injEq, List.mem_cons, Option.some.injEq]
      constructor
      · rintro (⟨v, hv, h1, h2, h3⟩ | ⟨h1, ev, hev, h2, h3⟩)
        · exact ⟨h1.symm, ev0, Or.inl rfl, h2, h3 ▸ hv⟩
        · exact ⟨h1, ev, Or.inr hev, h2, h3⟩
      · rintro ⟨h1, ev, hev | hev, h2, h3⟩
        · subst hev
          exact Or.inl ⟨v1, h3, h1.symm, h2, rfl⟩
        · exact Or.inr ⟨h1, ev, hev, h2, h3⟩

theorem mem_reprTriples (ps : List (List Byte × List (Option jsonEventsRepr)))
    (p1 e1 : List Byte) (v1 : Nat) :
    (p1, e1, v1) ∈ reprTriples ps ↔
      ∃ evs, (p1, evs) ∈ ps ∧ ∃ ev, some ev ∈ evs ∧ ev.Name = e1 ∧ v1 ∈ ev.Value := by
  induction ps with
  | nil => simp [reprTriples]
  | cons entry rest ih =>
    obtain ⟨p, evs0⟩ := entry
    rw [reprTriples, List.mem_append, ih, mem_eventTriples]
    simp only [List.mem_cons, Prod.mk.injEq]
    constructor
    · rintro (⟨h1, h2⟩ | ⟨evs, h1, h2⟩)
      · exact ⟨evs0, Or.inl ⟨h1, rfl⟩, h2⟩
      · exact ⟨evs, Or.inr h1, h2⟩
    · rintro ⟨evs, ⟨h1, h3⟩ | h1, h2⟩
      · subst h3
        exact Or.inl ⟨h1, h2⟩
      · exact Or.inr ⟨evs, h1, h2⟩

theorem addAll_wf {s : Stats} (hs : s.WF) (ts : List (List Byte × List Byte × Nat)) :
    (s.addAll ts).WF := by
  induction ts generalizing s with
  | nil => exact hs
  | cons t ts ih => exact ih (Add_wf hs _ _ _)

/-- The partitions after a sequence of `Add` calls. -/
theorem mem_Partitions_addAll (s : Stats) (ts : List (List Byte × List Byte × Nat))
    (p : List Byte) :
    p ∈ (s.addAll ts).Partitions ↔ p ∈ s.Partitions ∨ ∃ t ∈ ts, t.1 = p := by
  induction ts generalizing s with
  | nil => simp [Stats.addAll]
  | cons t ts ih =>
    rw [Stats.addAll, ih, mem_Partitions_Add]
    simp only [List.mem_cons, exists_eq_or_imp]
    constructor
    · rintro ((h | h) | h)
      · exact Or.inr (Or.inl h.symm)
      · exact Or.inl h
      · exact Or.inr (Or.inr h)
    · rintro (h | h | h)
      · exact Or.inl (Or.inr h)
      · exact Or.inl (Or.inl h.symm)
      · exact Or.inr h

/-- The values of an event after a sequence of `Add` calls: those it had, or else the value
of the first call that addresses it. -/
theorem Values_addAll (s : Stats) (ts : List (List Byte × List Byte × Nat))
    (p e : List Byte) :
    (s.addAll ts).Values p e =
      if (s.Values p e).2 = true then s.Values p e
      else
        match ts.find? (fun t => decide (t.1 = p ∧ t.2.1 = e)) with
        | some t => ([t.2.2], true)
        | none => ([], false) := by
  induction ts generalizing s with
  | nil =>
    by_cases h : (s.Values p e).2 = true
    · rw [if_pos h]; rfl
    · rw [if_neg h]; exact Values_not_found s p e h
  | cons t ts ih =>
    rw [Stats.addAll, ih, Values_Add, List.find?_cons]
    by_cases hm : p = t.1 ∧ e = t.2.1
    · obtain ⟨h1, h2⟩ := hm
      subst h1 h2
      simp only [and_self, if_true, decide_True]
      by_cases h : (s.Values t.1 t.2.1).2 = true
      · simp [h]
      · simp [h]
    · have hm2 : ¬ (t.1 = p ∧ t.2.1 = e) := fun h => hm ⟨h.1.symm, h.2.symm⟩
      simp only [hm, hm2, if_false, decide_False]

/-! ## The representation built by `Serialize` -/

theorem mapAssign_of_not_mem {β : Type} (k : List Byte) (v : β)
    (ps : List (List Byte × β)) (h : k ∉ ps.map Prod.fst) :
    mapAssign k v ps = ps ++ [(k, v)] := by
  induction ps with
  | nil => rfl
  | cons x xs ih =>
    obtain ⟨k1, v1⟩ := x
    simp only [List.map_cons, List.mem_cons, not_or] at h
    have hne : ¬ k1 = k := fun hk => h.1 hk.symm
    rw [mapAssign, if_neg hne, ih h.2]
    rfl

theorem foldl_mapAssign {α β : Type} (name : α → List Byte) (f : α → β) (l : List α)
    (acc : List (List Byte × β)) (hn : (l.map name).Nodup)
    (hd : ∀ x ∈ l, name x ∉ acc.map Prod.fst) :
    l.foldl (fun ps x => mapAssign (name x) (f x) ps) acc =
      acc ++ l.map (fun x => (name x, f x)) := by
  induction l generalizing acc with
  | nil => simp
  | cons x xs ih =>
    rw [List.map_cons, List.nodup_cons] at hn
    rw [List.foldl_cons, mapAssign_of_not_mem _ _ _ (hd x (List.mem_cons_self _ _)), ih]
    · simp
    · exact hn.2
    · intro y hy
      rw [List.map_append, List.mem_append, not_or]
      refine ⟨hd y (List.mem_cons_of_mem _ hy), ?_⟩
      intro hmem
      simp only [List.map_cons, List.map_nil, List.mem_singleton] at hmem
      exact hn.1 (hmem ▸ List.mem_map_of_mem name hy)

/-- In a well-formed store, `Serialize` builds one map entry per partition. -/
theorem toRepr_eq {s : Stats} (hs : s.WF) :
    s.toRepr.Partitions =
      s.partitions.items.map (fun part => (part.name, Stats.eventsRepr part)) := by
  unfold Stats.toRepr BTreeG.Walk
  dsimp only
  rw [foldl_mapAssign (fun part : statsPartition => part.name) Stats.eventsRepr
    s.partitions.items [] (ascending_nodup hs.1) (fun _ _ => by simp)]
  rfl

/-- The triples of the representation built by `Serialize` are the values of the events. -/
theorem mem_reprTriples_toRepr {s : Stats} (hs : s.WF) (p e : List Byte) (v : Nat) :
    (p, e, v) ∈ reprTriples s.toRepr.Partitions ↔
      (s.Values p e).2 = true ∧ v ∈ (s.Values p e).1 := by
  rw [mem_reprTriples, toRepr_eq hs, Values_eq]
  constructor
  · rintro ⟨evs, hmem, ev, hev, hname, hv⟩
    obtain ⟨part, hpart, hpe⟩ := List.mem_map.mp hmem
    simp only [Prod.mk.injEq] at hpe
    obtain ⟨hpn, hevs⟩ := hpe
    rw [← hevs] at hev
    obtain ⟨event, hevent, hee⟩ := List.mem_map.mp hev
    simp only [Option.some.injEq] at hee
    have h1 : s.part p = some part := by
      rw [← hpn]; exact lookup_of_mem hs.1 hpart
    have h2 : part.event e = some event := by
      have : event.name = e := by rw [← hname, ← hee]
      rw [← this]; exact lookup_of_mem (hs.2 part hpart).1 hevent
    rw [h1]
    dsimp only
    rw [h2]
    refine ⟨rfl, ?_⟩
    rw [← hee] at hv
    exact hv
  · cases hp : s.part p with
    | none => simp
    | some part =>
      dsimp only
      cases he : part.event e with
      | none => simp
      | some event =>
        rintro ⟨_, hv⟩
        refine ⟨Stats.eventsRepr part, ?_, ⟨event.name, event.values.ToArray⟩, ?_,
          event_name he, hv⟩
        · exact List.mem_map.mpr ⟨part, lookup_mem hp, by rw [part_name hp]⟩
        · exact List.mem_map.mpr ⟨event, lookup_mem he, rfl⟩

theorem eventsRepr_no_nil (part : statsPartition) : ∀ x ∈ Stats.eventsRepr part, x ≠ none := by
  intro x hx
  obtain ⟨event, _, h⟩ := List.mem_map.mp hx
  rw [← h]
  exact Option.some_ne_none _

/-! ## Stores built by `Add` alone -/

theorem reachableByAdd_wf {s : Stats} (h : ReachableByAdd s) : s.WF := by
  induction h with
  | new => exact New_wf
  | add p e v _ ih => exact Add_wf ih p e v

/-- In a store built by `Add` alone every event holds exactly one value. -/
theorem reachableByAdd_one_value {s : Stats} (h : ReachableByAdd s) (p e : List Byte)
    (hf : (s.Values p e).2 = true) : ∃ w, (s.Values p e).1 = [w] := by
  induction h generalizing p e with
  | new => exact absurd hf (by rw [Values_eq]; exact Bool.false_ne_true)
  | @add s0 p0 e0 v0 _ ih =>
    rw [Values_Add] at hf ⊢
    by_cases hm : p = p0 ∧ e = e0
    · rw [if_pos hm] at hf ⊢
      by_cases h0 : (s0.Values p0 e0).2 = true
      · rw [if_pos h0]
        exact ih p0 e0 h0
      · rw [if_neg h0]
        exact ⟨v0, rfl⟩
    · rw [if_neg hm] at hf ⊢
      exact ih p e hf

/-- In a store built by `Add` alone every partition has an event. -/
theorem reachableByAdd_has_event {s : Stats} (h : ReachableByAdd s) (p : List Byte)
    (hp : p ∈ s.Partitions) : ∃ e, (s.Values p e).2 = true := by
  induction h generalizing p with
  | new => exact absurd hp (by simp [Stats.Partitions, BTreeG.Walk, New, BTreeG.empty])
  | @add s0 p0 e0 v0 _ ih =>
    have key : ∀ e, (s0.Values p e).2 = true → ((s0.Add p0 e0 v0).1.Values p e).2 = true := by
      intro e he
      rw [Values_Add]
      by_cases hm : p = p0 ∧ e = e0
      · rw [if_pos hm]
        rw [hm.1, hm.2] at he
        rw [if_pos he]; exact he
      · rw [if_neg hm]; exact he
    rcases (mem_Partitions_Add s0 p0 e0 v0 p).mp hp with h1 | h1
    · refine ⟨e0, ?_⟩
      rw [Values_Add, if_pos ⟨h1, rfl⟩]
      by_cases h0 : (s0.Values p0 e0).2 = true
      · rw [if_pos h0]; exact h0
      · rw [if_neg h0]
    · obtain ⟨e, he⟩ := ih p h1
      exact ⟨e, key e he⟩

/-! ## Stores with the same observations -/

theorem Events_not_found (s : Stats) (p : List Byte) (hp : p ∉ s.Partitions) :
    s.Events p = ([], false) := by
  rw [Events_eq, (part_eq_none_iff s p).mpr hp]

theorem Events_snd (s : Stats) (p : List Byte) :
    (s.Events p).2 = true ↔ p ∈ s.Partitions := by
  rw [Events_eq, ← part_isSome_iff]
  cases s.part p <;> simp

/-- Two well-formed stores with the same partitions and the same values of every event have
the same list of partitions and the same list of events of every partition. -/
theorem observably_equal {s s1 : Stats} (hs : s.WF) (hs1 : s1.WF)
    (hP : ∀ p, p ∈ s1.Partitions ↔ p ∈ s.Partitions)
    (hV : ∀ p e, s1.Values p e = s.Values p e) :
    s1.Partitions = s.Partitions ∧ ∀ p, s1.Events p = s.Events p := by
  refine ⟨ascending_ext hs1.1 hs.1 hP, fun p => ?_⟩
  by_cases hp : p ∈ s.Partitions
  · have hp1 : p ∈ s1.Partitions := (hP p).mpr hp
    apply Prod.ext
    · apply ascending_ext (Events_ascending hs1 p) (Events_ascending hs p)
      intro e
      have h1 := Values_found_iff s1 p e
      have h2 := Values_found_iff s p e
      rw [hV] at h1
      constructor
      · intro he; exact (h2.mp (h1.mpr ⟨hp1, he⟩)).2
      · intro he; exact (h1.mp (h2.mpr ⟨hp, he⟩)).2
    · rw [(Events_snd s1 p).mpr hp1, (Events_snd s p).mpr hp]
  · have hp1 : p ∉ s1.Partitions := fun h => hp ((hP p).mp h)
    rw [Events_not_found s p hp, Events_not_found s1 p hp1]

/-! ## The round trip -/

/-- C3: for every store `s` obtained from `New()` by `Add` calls, with a codec that is
lossless on the representation of `s`: `Serialize(s)` succeeds, `Deserialize` of its output
into a fresh store returns nil, and the new store has the same `Partitions()`, the same
`Events(p)` for every `p` and the same `Values(p, e)` for every `p` and `e`, in whatever
order the decoded map is iterated. -/
theorem Serialize_Deserialize_round_trip (s : Stats) (h : ReachableByAdd s)
    (marshal : jsonStatsRepr → Except String (List Byte))
    (unmarshal : List Byte → Except String jsonStatsRepr)
    (hl : LosslessOn marshal unmarshal s.toRepr) :
    ∃ data, s.Serialize marshal = .ok data ∧
      (New.Deserialize unmarshal data).2 = DeserializeExit.returnedNil ∧
      (New.Deserialize unmarshal data).1.Partitions = s.Partitions ∧
      (∀ p, (New.Deserialize unmarshal data).1.Events p = s.Events p) ∧
      (∀ p e, (New.Deserialize unmarshal data).1.Values p e = s.Values p e) := by
  obtain ⟨data, obj, hm, hu, hperm⟩ := hl
  have hs := reachableByAdd_wf h
  have hnonil : ∀ entry ∈ obj.Partitions, ∀ x ∈ entry.2, x ≠ none := by
    intro entry hentry
    have h1 : entry ∈ s.toRepr.Partitions := hperm.mem_iff.mp hentry
    rw [toRepr_eq hs] at h1
    obtain ⟨part, _, hpe⟩ := List.mem_map.mp h1
    rw [← hpe]
    exact eventsRepr_no_nil part
  have hD : New.Deserialize unmarshal data =
      (New.addAll (reprTriples obj.Partitions), DeserializeExit.returnedNil) := by
    unfold Stats.Deserialize
    rw [hu]
    dsimp only
    rw [replayPartitions_eq New obj.Partitions hnonil, if_pos rfl]
  have hmem : ∀ p e v, (p, e, v) ∈ reprTriples obj.Partitions ↔
      (s.Values p e).2 = true ∧ v ∈ (s.Values p e).1 := by
    intro p e v
    rw [← mem_reprTriples_toRepr hs, mem_reprTriples, mem_reprTriples]
    constructor
    · rintro ⟨evs, h1, h2⟩; exact ⟨evs, hperm.mem_iff.mp h1, h2⟩
    · rintro ⟨evs, h1, h2⟩; exact ⟨evs, hperm.mem_iff.mpr h1, h2⟩
  have hNewV : ∀ p e, ¬ (New.Values p e).2 = true := by
    intro p e
    rw [Values_eq]
    exact Bool.false_ne_true
  have hV : ∀ p e, (New.addAll (reprTriples obj.Partitions)).Values p e = s.Values p e := by
    intro p e
    rw [Values_addAll, if_neg (hNewV p e)]
    cases hfind : (reprTriples obj.Partitions).find?
        (fun t => decide (t.1 = p ∧ t.2.1 = e)) with
    | none =>
      dsimp only
      symm
      apply Values_not_found
      intro hf
      obtain ⟨w, hw⟩ := reachableByAdd_one_value h p e hf
      have hin : (p, e, w) ∈ reprTriples obj.Partitions :=
        (hmem p e w).mpr ⟨hf, by rw [hw]; exact List.mem_singleton.mpr rfl⟩
      have := List.find?_eq_none.mp hfind (p, e, w) hin
      simp at this
    | some t =>
      dsimp only
      have hin : t ∈ reprTriples obj.Partitions := List.mem_of_find?_eq_some hfind
      have hpe := List.find?_some hfind
      simp only [decide_eq_true_eq] at hpe
      obtain ⟨t1, t2, t3⟩ := t
      dsimp only at hpe ⊢
      obtain ⟨rfl, rfl⟩ := hpe
      obtain ⟨hf, hv⟩ := (hmem t1 t2 t3).mp hin
      obtain ⟨w, hw⟩ := reachableByAdd_one_value h t1 t2 hf
      rw [hw] at hv
      have h3 : t3 = w := List.mem_singleton.mp hv
      apply Prod.ext
      · rw [hw, h3]
      · rw [hf]
  have hP : ∀ p, p ∈ (New.addAll (reprTriples obj.Partitions)).Partitions ↔
      p ∈ s.Partitions := by
    intro p
    rw [mem_Partitions_addAll]
    constructor
    · rintro (h1 | ⟨t, ht, rfl⟩)
      · exact absurd h1 (List.not_mem_nil _)
      · obtain ⟨t1, t2, t3⟩ := t
        exact ((Values_found_iff s t1 t2).mp ((hmem t1 t2 t3).mp ht).1).1
    · intro hp
      obtain ⟨e, he⟩ := reachableByAdd_has_event h p hp
      obtain ⟨w, hw⟩ := reachableByAdd_one_value h p e he
      refine Or.inr ⟨(p, e, w), (hmem p e w).mpr ⟨he, ?_⟩, rfl⟩
      rw [hw]; exact List.mem_singleton.mpr rfl
  have hobs := observably_equal hs (addAll_wf New_wf (reprTriples obj.Partitions)) hP hV
  refine ⟨data, ?_, ?_, ?_, ?_, ?_⟩
  · unfold Stats.Serialize
    rw [hm]
  · rw [hD]
  · rw [hD]; exact hobs.1
  · rw [hD]; exact hobs.2
  · rw [hD]; exact hV

/-- C3 at a concrete store: the store built by four `Add` calls, with a decoder that yields
the map entries in the reverse order. -/
theorem Serialize_Deserialize_round_trip_witness :
    ReachableByAdd exStore3 ∧ LosslessOn exMarshal exUnmarshal exStore3.toRepr ∧
      ∃ data, exStore3.Serialize exMarshal = .ok data ∧
        (New.Deserialize exUnmarshal data).2 = DeserializeExit.returnedNil ∧
        (New.Deserialize exUnmarshal data).1.Partitions = exStore3.Partitions ∧
        (∀ p, (New.Deserialize exUnmarshal data).1.Events p = exStore3.Events p) ∧
        (∀ p e, (New.Deserialize exUnmarshal data).1.Values p e = exStore3.Values p e) :=
  ⟨ReachableByAdd.add _ _ _ (ReachableByAdd.add _ _ _ (ReachableByAdd.add _ _ _
      (ReachableByAdd.add _ _ _ ReachableByAdd.new))),
   ⟨[], ⟨exStore3.toRepr.Partitions.reverse⟩, rfl, rfl, List.reverse_perm _⟩,
   Serialize_Deserialize_round_trip exStore3
     (ReachableByAdd.add _ _ _ (ReachableByAdd.add _ _ _ (ReachableByAdd.add _ _ _
      (ReachableByAdd.add _ _ _ ReachableByAdd.new))))
     exMarshal exUnmarshal
     ⟨[], ⟨exStore3.toRepr.Partitions.reverse⟩, rfl, rfl, List.reverse_perm _⟩⟩

/-! ## The return value and the frame of `Add` -/

/-- C18: `Add(p, e, v)` returns true for every store and every `p`, `e`, `v`; an event that
existed keeps its values (the right operand of `eventExists || CheckedAdd(value)` is not
evaluated), and an event that did not exist holds exactly `v` afterwards. -/
theorem Add_returns_true (s : Stats) (p e : List Byte) (v : Nat) :
    (s.Add p e v).2 = true ∧
    (s.Add p e v).1.Values p e =
      (if (s.Values p e).2 = true then s.Values p e else ([v], true)) := by
  refine ⟨?_, ?_⟩
  · rw [Add_eq]
    cases s.part p with
    | none => rfl
    | some q =>
      dsimp only
      cases q.event e <;> rfl
  · rw [Values_Add, if_pos ⟨rfl, rfl⟩]

/-- The list of events of a partition that `Add` does not address is unchanged. -/
theorem Events_Add_of_ne (s : Stats) (p e : List Byte) (v : Nat) (q : List Byte)
    (hq : q ≠ p) : (s.Add p e v).1.Events q = s.Events q := by
  have hpq : ¬ p = q := fun h => hq h.symm
  rw [Events_eq, Events_eq, part_Add]
  cases s.part p with
  | none =>
    dsimp only
    rw [if_neg hpq]
  | some p0 =>
    dsimp only
    cases p0.event e with
    | some ev => rfl
    | none =>
      dsimp only
      rw [if_neg hpq]

/-- C16: `Add(p, e, v)` changes nothing outside the addressed event: `Events(q)` and
`Values(q, f)` are as before for every partition `q` other than `p`, and `Values(p, f)` is
as before for every event `f` other than `e`. -/
theorem Add_frame (s : Stats) (p e : List Byte) (v : Nat) :
    (∀ q, q ≠ p → (s.Add p e v).1.Events q = s.Events q ∧
      ∀ f, (s.Add p e v).1.Values q f = s.Values q f) ∧
    (∀ f, f ≠ e → (s.Add p e v).1.Values p f = s.Values p f) := by
  refine ⟨fun q hq => ⟨Events_Add_of_ne s p e v q hq, fun f => ?_⟩, fun f hf => ?_⟩
  · rw [Values_Add, if_neg (fun h => hq h.1)]
  · rw [Values_Add, if_neg (fun h => hf h.2)]

/-- C16 at a concrete store: adding "q"/"e" to the store holding "p"/"msg:1" and "p"/"msg:2"
leaves partition "p" as it was, and adding "p"/"e" leaves "p"/"msg:1" as it was. -/
theorem Add_frame_witness :
    (exStore2.Add exQ exE 7).1.Events exP = exStore2.Events exP ∧
    (exStore2.Add exQ exE 7).1.Values exP exMsg1 = exStore2.Values exP exMsg1 ∧
    (exStore2.Add exP exE 7).1.Values exP exMsg1 = exStore2.Values exP exMsg1 :=
  ⟨((Add_frame exStore2 exQ exE 7).1 exP (by decide)).1,
   ((Add_frame exStore2 exQ exE 7).1 exP (by decide)).2 exMsg1,
   (Add_frame exStore2 exP exE 7).2 exMsg1 (by decide)⟩

/-! ## Not-found results -/

theorem ValuesSet_eq (s : Stats) (p e : List Byte) :
    s.ValuesSet p e =
      match s.part p with
      | none => (none, false)
      | some q =>
        match q.event e with
        | none => (none, false)
        | some ev => (some ev.values, true) := by
  unfold Stats.ValuesSet
  rw [Get_partition]
  cases s.part p with
  | none => rfl
  | some q =>
    simp only [Get_event]
    rfl

theorem ValuesSet_snd (s : Stats) (p e : List Byte) :
    (s.ValuesSet p e).2 = (s.Values p e).2 := by
  rw [ValuesSet_eq, Values_eq]
  cases s.part p with
  | none => rfl
  | some q =>
    dsimp only
    cases q.event e <;> rfl

theorem EventsByPrefix_snd (s : Stats) (p pre : List Byte) :
    (s.EventsByPrefix p pre).2 = (s.Events p).2 := by
  unfold Stats.EventsByPrefix Stats.Events
  cases s.partitions.Get statsPartitionLess (queryPartition (s2b p)) <;> rfl

theorem EventsByPrefix_not_found (s : Stats) (p pre : List Byte)
    (h : (s.EventsByPrefix p pre).2 = false) : (s.EventsByPrefix p pre).1 = [] := by
  unfold Stats.EventsByPrefix at h ⊢
  cases hg : s.partitions.Get statsPartitionLess (queryPartition (s2b p)) with
  | none => rfl
  | some q => rw [hg] at h; exact absurd h (by simp)

/-- C13: `Events`, `EventsCount` and `EventsByPrefix` report found exactly when `p` is in
`Partitions()`; `Values`, `ValuesCount` and `ValuesSet` report found exactly when `p` is in
`Partitions()` and `e` is in `Events(p)`; a not-found result carries the empty list, the count
0 or the nil bitmap; and `EventsCount(p)` is the length of `Events(p)`, `ValuesCount(p, e)`
the length of `Values(p, e)`. -/
theorem not_found_semantics (s : Stats) (p e pre : List Byte) :
    (((s.Events p).2 = true ↔ p ∈ s.Partitions) ∧
      ((s.EventsCount p).2 = true ↔ p ∈ s.Partitions) ∧
      ((s.EventsByPrefix p pre).2 = true ↔ p ∈ s.Partitions)) ∧
    (((s.Values p e).2 = true ↔ p ∈ s.Partitions ∧ e ∈ (s.Events p).1) ∧
      ((s.ValuesCount p e).2 = true ↔ p ∈ s.Partitions ∧ e ∈ (s.Events p).1) ∧
      ((s.ValuesSet p e).2 = true ↔ p ∈ s.Partitions ∧ e ∈ (s.Events p).1)) ∧
    (((s.Events p).2 = false → (s.Events p).1 = []) ∧
      ((s.EventsCount p).2 = false → (s.EventsCount p).1 = 0) ∧
      ((s.EventsByPrefix p pre).2 = false → (s.EventsByPrefix p pre).1 = []) ∧
      ((s.Values p e).2 = false → (s.Values p e).1 = []) ∧
      ((s.ValuesCount p e).2 = false → (s.ValuesCount p e).1 = 0) ∧
      ((s.ValuesSet p e).2 = false → (s.ValuesSet p e).1 = none)) ∧
    ((s.EventsCount p).1 = (s.Events p).1.length ∧
      (s.ValuesCount p e).1 = (s.Values p e).1.length) := by
  have hE : (s.Events p).2 = false → (s.Events p).1 = [] := by
    rw [Events_eq]
    cases s.part p with
    | none => exact fun _ => rfl
    | some q => exact fun h => absurd h (by simp)
  have hV : (s.Values p e).2 = false → (s.Values p e).1 = [] := by
    intro h
    rw [Values_not_found s p e (by rw [h]; exact Bool.false_ne_true)]
  have hS : (s.ValuesSet p e).2 = false → (s.ValuesSet p e).1 = none := by
    rw [ValuesSet_eq]
    cases s.part p with
    | none => exact fun _ => rfl
    | some q =>
      dsimp only
      cases q.event e with
      | none => exact fun _ => rfl
      | some ev => exact fun h => absurd h (by simp)
  refine ⟨⟨Events_snd s p, ?_, ?_⟩, ⟨Values_found_iff s p e, ?_, ?_⟩,
    ⟨hE, ?_, EventsByPrefix_not_found s p pre, hV, ?_, hS⟩, ?_, ?_⟩
  · rw [EventsCount_eq_Events]; exact Events_snd s p
  · rw [EventsByPrefix_snd]; exact Events_snd s p
  · rw [ValuesCount_eq_Values]; exact Values_found_iff s p e
  · rw [ValuesSet_snd]; exact Values_found_iff s p e
  · rw [EventsCount_eq_Events]
    intro h
    show (s.Events p).1.length = 0
    rw [hE h]; rfl
  · rw [ValuesCount_eq_Values]
    intro h
    show (s.Values p e).1.length = 0
    rw [hV h]; rfl
  · rw [EventsCount_eq_Events]
  · rw [ValuesCount_eq_Values]

/-- C13 at a concrete store: a missing event of the store holding `p/e = {1}`. -/
theorem not_found_semantics_witness :
    (exStore1.Values exP exMsg1).2 = false ∧ (exStore1.Values exP exMsg1).1 = [] ∧
      (exStore1.ValuesCount exP exMsg1).1 = 0 ∧ (exStore1.ValuesSet exP exMsg1).1 = none :=
  ⟨by decide,
   (not_found_semantics exStore1 exP exMsg1 []).2.2.1.2.2.2.1 (by decide),
   (not_found_semantics exStore1 exP exMsg1 []).2.2.1.2.2.2.2.1 (by decide),
   (not_found_semantics exStore1 exP exMsg1 []).2.2.1.2.2.2.2.2 (by decide)⟩

/-! ## Lazy creation -/

/-- The names after `Set`: the name of the item put at its place. -/
theorem keys_setList {α : Type} {less : α → α → Bool} {key : α → List Byte}
    (hl : KeyedBy less key) (item : α) (l : List α) :
    (BTreeG.setList less item l).map key = insertName (key item) (l.map key) := by
  induction l with
  | nil => rfl
  | cons x xs ih =>
    rw [BTreeG.setList, List.map_cons, insertName]
    by_cases h1 : less item x = true
    · rw [if_pos h1, if_pos ((less_iff hl _ _).mp h1)]
      rfl
    · have h1n : ¬ bytesCompare (key item) (key x) < 0 := fun h => h1 ((less_iff hl _ _).mpr h)
      by_cases h2 : less x item = true
      · rw [if_neg h1, if_pos h2, if_neg h1n, if_pos ((less_iff hl _ _).mp h2),
          List.map_cons, ih]
      · have h2n : ¬ bytesCompare (key x) (key item) < 0 :=
          fun h => h2 ((less_iff hl _ _).mpr h)
        rw [if_neg h1, if_neg h2, if_neg h1n, if_neg h2n, List.map_cons,
          same_key_of_not_less hl h1 h2]

theorem insertName_of_mem {n : List Byte} {l : List (List Byte)} (hs : Ascending l)
    (hn : n ∈ l) : insertName n l = l := by
  induction l with
  | nil => cases hn
  | cons x xs ih =>
    simp only [Ascending, List.pairwise_cons] at hs
    rw [insertName]
    rcases List.mem_cons.mp hn with rfl | hn
    · rw [if_neg (bytesCompare_irrefl _), if_neg (bytesCompare_irrefl _)]
    · have hlt := hs.1 n hn
      rw [if_neg (bytesCompare_asymm hlt), if_pos hlt, ih hs.2 hn]

/-- Where `insertName` puts a name that an ascending list does not have: after the smaller
names and before the greater ones. -/
theorem insertName_of_not_mem {n : List Byte} {l : List (List Byte)} (hs : Ascending l)
    (hn : n ∉ l) :
    ∃ l1 l2, l = l1 ++ l2 ∧ insertName n l = l1 ++ n :: l2 ∧
      (∀ x ∈ l1, bytesCompare x n < 0) ∧ (∀ x ∈ l2, bytesCompare n x < 0) := by
  induction l with
  | nil => exact ⟨[], [], rfl, rfl, fun _ h => absurd h (List.not_mem_nil _),
      fun _ h => absurd h (List.not_mem_nil _)⟩
  | cons x xs ih =>
    simp only [Ascending, List.pairwise_cons] at hs
    rw [List.mem_cons, not_or] at hn
    rw [insertName]
    by_cases h1 : bytesCompare n x < 0
    · rw [if_pos h1]
      refine ⟨[], x :: xs, rfl, rfl, fun _ h => absurd h (List.not_mem_nil _), ?_⟩
      intro y hy
      rcases List.mem_cons.mp hy with rfl | hy
      · exact h1
      · exact bytesCompare_trans h1 (hs.1 y hy)
    · have h2 : bytesCompare x n < 0 := by
        by_contra h2
        exact hn.1 (bytesCompare_total h1 h2)
      rw [if_neg h1, if_pos h2]
      obtain ⟨l1, l2, e1, e2, b1, b2⟩ := ih hs.2 hn.2
      refine ⟨x :: l1, l2, by rw [e1]; rfl, by rw [e2]; rfl, ?_, b2⟩
      intro y hy
      rcases List.mem_cons.mp hy with rfl | hy
      · exact h2
      · exact b1 y hy

/-- The list of partitions after `Add`, in a well-formed store. -/
theorem Partitions_Add {s : Stats} (hs : s.WF) (p e : List Byte) (v : Nat) :
    (s.Add p e v).1.Partitions =
      if p ∈ s.Partitions then s.Partitions else insertName p s.Partitions := by
  rw [Add_eq]
  cases hp : s.part p with
  | none =>
    rw [if_neg ((part_eq_none_iff s p).mp hp)]
    exact keys_setList statsPartitionLess_keyed _ _
  | some q =>
    have hmem : p ∈ s.Partitions := (part_isSome_iff s p).mp (by rw [hp]; rfl)
    rw [if_pos hmem]
    dsimp only
    cases he : q.event e with
    | some ev => rfl
    | none => exact Partitions_Set_of_part hs hp _ (@part_name s p q hp)

/-- The list of events of the addressed partition after `Add`. -/
theorem Events_Add_self (s : Stats) (p e : List Byte) (v : Nat) :
    (s.Add p e v).1.Events p =
      ((if e ∈ (s.Events p).1 then (s.Events p).1 else insertName e (s.Events p).1),
        true) := by
  rw [Events_eq, Events_eq, part_Add]
  cases hp : s.part p with
  | none =>
    dsimp only
    rw [if_pos rfl, if_neg (List.not_mem_nil _)]
    rfl
  | some q =>
    dsimp only
    cases he : q.event e with
    | some ev =>
      dsimp only
      have : e ∈ q.events.items.map (fun x => x.name) := by
        have h1 := lookup_mem he
        have h2 := @event_name q e ev he
        exact h2 ▸ List.mem_map_of_mem (fun x : statsEvent => x.name) h1
      rw [if_pos this]
    | none =>
      dsimp only
      rw [if_pos rfl]
      dsimp only
      rw [if_neg ((event_eq_none_iff q e).mp he)]
      congr 1
      exact keys_setList statsEventLess_keyed _ _

/-- The addressed event exists after `Add`. -/
theorem mem_Events_Add_self (s : Stats) (p e : List Byte) (v : Nat) :
    e ∈ ((s.Add p e v).1.Events p).1 := by
  have h2 : ((s.Add p e v).1.Values p e).2 = true := by
    rw [Values_Add, if_pos ⟨rfl, rfl⟩]
    by_cases h : (s.Values p e).2 = true
    · rw [if_pos h]; exact h
    · rw [if_neg h]
  exact ((Values_found_iff _ p e).mp h2).2

/-- C11: in a well-formed store, after `Add(p, e, v)` the list `Partitions()` is the previous
list if it had `p`, and else the previous list with `p` put at its sorted place (after the
smaller names, before the greater ones); and `Events(p)` is `(es, true)` where `es` is the
previous list of events of `p` (empty when `p` was absent) if it had `e`, and else that list
with `e` put at its sorted place. -/
theorem Add_creates_lazily (s : Stats) (hs : s.WF) (p e : List Byte) (v : Nat) :
    (s.Add p e v).1.Partitions =
      (if p ∈ s.Partitions then s.Partitions else insertName p s.Partitions) ∧
    (s.Add p e v).1.Events p =
      ((if e ∈ (s.Events p).1 then (s.Events p).1 else insertName e (s.Events p).1), true) ∧
    (p ∉ s.Partitions → (s.Events p).1 = [] ∧
      ∃ l1 l2, s.Partitions = l1 ++ l2 ∧ (s.Add p e v).1.Partitions = l1 ++ p :: l2 ∧
        (∀ x ∈ l1, bytesCompare x p < 0) ∧ (∀ x ∈ l2, bytesCompare p x < 0)) ∧
    (e ∉ (s.Events p).1 →
      ∃ l1 l2, (s.Events p).1 = l1 ++ l2 ∧ ((s.Add p e v).1.Events p).1 = l1 ++ e :: l2 ∧
        (∀ x ∈ l1, bytesCompare x e < 0) ∧ (∀ x ∈ l2, bytesCompare e x < 0)) ∧
    p ∈ (s.Add p e v).1.Partitions ∧ e ∈ ((s.Add p e v).1.Events p).1 := by
  have hP := Partitions_Add hs p e v
  have hE := Events_Add_self s p e v
  refine ⟨hP, hE, ?_, ?_, ?_, ?_⟩
  · intro hp
    refine ⟨by rw [Events_not_found s p hp], ?_⟩
    rw [hP, if_neg hp]
    exact insertName_of_not_mem hs.1 hp
  · intro he
    rw [hE, if_neg he]
    exact insertName_of_not_mem (Events_ascending hs p) he
  · exact (mem_Partitions_Add s p e v p).mpr (Or.inl rfl)
  · exact mem_Events_Add_self s p e v

/-- C11 at a concrete store: adding "p"/"e" and "e"/"e" to the store holding "p"/"msg:1" and
"p"/"msg:2". -/
theorem Add_creates_lazily_witness :
    exStore2.WF ∧
    (exStore2.Add exP exE 1).1.Events exP = ([exE, exMsg1, exMsg2], true) ∧
    (exStore2.Add exE exE 1).1.Partitions = [exE, exP] :=
  ⟨by decide,
   (Add_creates_lazily exStore2 (by decide) exP exE 1).2.1.trans (by decide),
   (Add_creates_lazily exStore2 (by decide) exE exE 1).1.trans (by decide)⟩

/-! ## The sentinel bound of the prefix scan -/

/-- A name that starts with `pre` continues with the byte 255 exactly when its byte at index
`pre.length` is 255. -/
theorem sentinel_prefix_iff (pre n : List Byte) (h : pre <+: n) :
    (pre ++ [255]) <+: n ↔ n.get? pre.length = some 255 := by
  induction pre generalizing n with
  | nil =>
    cases n with
    | nil => simp
    | cons b t =>
      rw [List.nil_append, List.cons_prefix_cons]
      simp only [List.nil_prefix, and_true, List.length_nil, List.get?_cons_zero,
        Option.some.injEq]
      exact eq_comm
  | cons c cs ih =>
    cases n with
    | nil => simp at h
    | cons b t =>
      rw [List.cons_prefix_cons] at h
      rw [List.cons_append, List.cons_prefix_cons, List.length_cons, List.get?_cons_succ,
        ← ih t h.2]
      simp [h.1]

/-- C15: in a well-formed store with partition `p`, `EventsByPrefix(p, prefix)` returns, in
the ascending order of `Events(p)`, exactly the event names `n` of `p` with
`prefix <= n < prefix ++ [0xFF]` in the order of `bytes.Compare`; these are exactly the event
names that start with `prefix` and whose byte at index `len(prefix)`, if any, is not 0xFF.
So every returned name starts with `prefix`, and an event name that starts with `prefix` is
left out exactly when its byte right after the prefix is 0xFF. -/
theorem EventsByPrefix_sentinel (s : Stats) (hs : s.WF) (p pre : List Byte)
    (hp : p ∈ s.Partitions) :
    s.EventsByPrefix p pre =
      ((s.Events p).1.filter (fun n =>
        decide (¬ bytesCompare n pre < 0 ∧ bytesCompare n (pre ++ [255]) < 0)), true) ∧
    s.EventsByPrefix p pre =
      ((s.Events p).1.filter (fun n =>
        decide (pre <+: n ∧ n.get? pre.length ≠ some 255)), true) ∧
    Ascending (s.EventsByPrefix p pre).1 ∧
    (∀ n ∈ (s.EventsByPrefix p pre).1, pre <+: n) ∧
    (∀ n ∈ (s.Events p).1, pre <+: n →
      (n ∉ (s.EventsByPrefix p pre).1 ↔ n.get? pre.length = some 255)) := by
  have h0 : s.EventsByPrefix p pre =
      ((s.Events p).1.filter (fun n =>
        decide (pre <+: n ∧ ¬ (pre ++ [255]) <+: n)), true) := by
    rw [EventsByPrefix_eq hs, Events_eq]
    cases hq : s.part p with
    | none => exact absurd hp ((part_eq_none_iff s p).mp hq)
    | some q => rfl
  have h1 : s.EventsByPrefix p pre =
      ((s.Events p).1.filter (fun n =>
        decide (¬ bytesCompare n pre < 0 ∧ bytesCompare n (pre ++ [255]) < 0)), true) := by
    rw [h0]
    congr 1
    apply List.filter_congr
    intro n _
    rw [decide_eq_decide]
    exact (between_sentinel_iff pre n).symm
  have h2 : s.EventsByPrefix p pre =
      ((s.Events p).1.filter (fun n =>
        decide (pre <+: n ∧ n.get? pre.length ≠ some 255)), true) := by
    rw [h0]
    congr 1
    apply List.filter_congr
    intro n _
    rw [decide_eq_decide]
    constructor
    · rintro ⟨ha, hb⟩
      exact ⟨ha, fun h => hb ((sentinel_prefix_iff pre n ha).mpr h)⟩
    · rintro ⟨ha, hb⟩
      exact ⟨ha, fun h => hb ((sentinel_prefix_iff pre n ha).mp h)⟩
  refine ⟨h1, h2, ?_, ?_, ?_⟩
  · rw [h0]
    exact List.Pairwise.filter _ (Events_ascending hs p)
  · intro n hn
    rw [h0, List.mem_filter] at hn
    exact (of_decide_eq_true hn.2).1
  · intro n hn hpre
    rw [h2, List.mem_filter]
    simp only [decide_eq_true_eq, not_and, not_not]
    constructor
    · intro h; exact h hn hpre
    · intro h _ _; exact h

/-- C15 at a concrete store: the scan for "a" in the store holding the events "ab" and
"a\xff" of partition "p" leaves out "a\xff". -/
theorem EventsByPrefix_sentinel_witness :
    exStoreFF.WF ∧ exP ∈ exStoreFF.Partitions ∧
      exStoreFF.EventsByPrefix exP exA = ([exAB], true) ∧
      (exAFF ∉ (exStoreFF.EventsByPrefix exP exA).1 ↔ exAFF.get? exA.length = some 255) :=
  ⟨by decide, by decide,
   (EventsByPrefix_sentinel exStoreFF (by decide) exP exA (by decide)).1.trans (by decide),
   (EventsByPrefix_sentinel exStoreFF (by decide) exP exA (by decide)).2.2.2.2 exAFF
     (by decide) (by decide)⟩

/-! ## How `Deserialize` ends -/

theorem replayEvents_snd (s : Stats) (p : List Byte) (evs : List (Option jsonEventsRepr)) :
    (s.replayEvents p evs).2 = evs.all (fun x => x.isSome) := by
  induction evs generalizing s with
  | nil => rfl
  | cons x xs ih =>
    cases x with
    | none => rfl
    | some ev =>
      rw [Stats.replayEvents, ih]
      rfl

theorem replayPartitions_snd (s : Stats)
    (ps : List (List Byte × List (Option jsonEventsRepr))) :
    (s.replayPartitions ps).2 = ps.all (fun entry => entry.2.all (fun x => x.isSome)) := by
  induction ps generalizing s with
  | nil => rfl
  | cons entry rest ih =>
    obtain ⟨p, evs⟩ := entry
    rw [Stats.replayPartitions, List.all_cons]
    by_cases h : (s.replayEvents p evs).2 = true
    · rw [if_pos h, ih, ← replayEvents_snd s p evs, h]
      rfl
    · rw [if_neg h, ← replayEvents_snd s p evs]
      simp only [Bool.not_eq_true] at h
      rw [h]
      rfl

theorem no_nil_of_all {ps : List (List Byte × List (Option jsonEventsRepr))}
    (h : ps.all (fun entry => entry.2.all (fun x => x.isSome)) = true) :
    ∀ entry ∈ ps, ∀ x ∈ entry.2, x ≠ none := by
  intro entry hentry x hx hnone
  rw [List.all_eq_true] at h
  have h1 := h entry hentry
  rw [List.all_eq_true] at h1
  have h2 := h1 x hx
  rw [hnone] at h2
  exact Bool.false_ne_true h2

theorem all_of_no_nil {ps : List (List Byte × List (Option jsonEventsRepr))}
    (h : ∀ entry ∈ ps, ∀ x ∈ entry.2, x ≠ none) :
    ps.all (fun entry => entry.2.all (fun x => x.isSome)) = true := by
  rw [List.all_eq_true]
  intro entry hentry
  rw [List.all_eq_true]
  intro x hx
  cases x with
  | none => exact absurd rfl (h entry hentry none hx)
  | some ev => rfl

/-- A property of stores that every `Add` keeps is kept by the replay of `Deserialize`,
however far the replay gets. -/
theorem replayPartitions_keeps (P : Stats → Prop)
    (hadd : ∀ s p e v, P s → P (s.Add p e v).1) (s : Stats) (hs : P s)
    (ps : List (List Byte × List (Option jsonEventsRepr))) : P (s.replayPartitions ps).1 := by
  have hv : ∀ (vs : List Nat) (s : Stats) (p e : List Byte), P s → P (s.replayValues p e vs) := by
    intro vs
    induction vs with
    | nil => exact fun _ _ _ h => h
    | cons v vs ih => exact fun s p e h => ih _ p e (hadd s p e v h)
  have he : ∀ (evs : List (Option jsonEventsRepr)) (s : Stats) (p : List Byte), P s →
      P (s.replayEvents p evs).1 := by
    intro evs
    induction evs with
    | nil => exact fun _ _ h => h
    | cons x xs ih =>
      cases x with
      | none => exact fun _ _ h => h
      | some ev => exact fun s p h => ih _ p (hv ev.Value s p ev.Name h)
  induction ps generalizing s with
  | nil => exact hs
  | cons entry rest ih =>
    obtain ⟨p, evs⟩ := entry
    rw [Stats.replayPartitions]
    split
    · exact ih _ (he evs s p hs)
    · exact he evs s p hs

/-- A property of stores that every `Add` keeps is kept by `Deserialize`, however it ends. -/
theorem Deserialize_keeps (P : Stats → Prop)
    (hadd : ∀ s p e v, P s → P (s.Add p e v).1) (s : Stats) (hs : P s)
    (unmarshal : List Byte → Except String jsonStatsRepr) (data : List Byte) :
    P (s.Deserialize unmarshal data).1 := by
  unfold Stats.Deserialize
  cases unmarshal data with
  | error err => exact hs
  | ok obj =>
    dsimp only
    split
    · exact replayPartitions_keeps P hadd s hs _
    · exact replayPartitions_keeps P hadd s hs _

/-- C17: when `Deserialize(data)` returns an error, the decoder rejected the input and the
store is as before; when it returns nil, the store is the result of one `Add(p, e, v)` per
(partition, event, value) triple of the parsed representation, in the order of the loops,
applied to the store as it was; in every case the partitions that existed still exist and
the events that existed keep their values. -/
theorem Deserialize_outcomes (s : Stats)
    (unmarshal : List Byte → Except String jsonStatsRepr) (data : List Byte) :
    (∀ msg, (s.Deserialize unmarshal data).2 = DeserializeExit.returnedError msg →
      (∃ err, unmarshal data = .error err) ∧ (s.Deserialize unmarshal data).1 = s) ∧
    ((s.Deserialize unmarshal data).2 = DeserializeExit.returnedNil →
      ∃ obj, unmarshal data = .ok obj ∧
        (s.Deserialize unmarshal data).1 = s.addAll (reprTriples obj.Partitions)) ∧
    (∀ p, p ∈ s.Partitions → p ∈ (s.Deserialize unmarshal data).1.Partitions) ∧
    (∀ p e, (s.Values p e).2 = true →
      (s.Deserialize unmarshal data).1.Values p e = s.Values p e) := by
  refine ⟨?_, ?_, ?_, ?_⟩
  · intro msg h
    unfold Stats.Deserialize at h ⊢
    cases hu : unmarshal data with
    | error err => exact ⟨⟨err, rfl⟩, rfl⟩
    | ok obj =>
      rw [hu] at h
      dsimp only at h
      split at h <;> cases h
  · intro h
    unfold Stats.Deserialize at h ⊢
    cases hu : unmarshal data with
    | error err => rw [hu] at h; cases h
    | ok obj =>
      rw [hu] at h
      dsimp only at h ⊢
      by_cases hflag : (s.replayPartitions obj.Partitions).2 = true
      · rw [if_pos hflag]
        refine ⟨obj, rfl, ?_⟩
        rw [replayPartitions_snd] at hflag
        rw [replayPartitions_eq s obj.Partitions (no_nil_of_all hflag)]
      · rw [if_neg hflag] at h; cases h
  · intro p hp
    exact Deserialize_keeps (fun t => p ∈ t.Partitions)
      (fun t p1 e1 v1 ht => (mem_Partitions_Add t p1 e1 v1 p).mpr (Or.inr ht))
      s hp unmarshal data
  · intro p e hf
    have := Deserialize_keeps (fun t => (t.Values p e).2 = true ∧ t.Values p e = s.Values p e)
      (fun t p1 e1 v1 ht => by
        dsimp only at ht ⊢
        rw [Values_Add]
        by_cases hm : p = p1 ∧ e = e1
        · rw [if_pos hm, ← hm.1, ← hm.2, if_pos ht.1]
          exact ht
        · rw [if_neg hm]
          exact ht)
      s ⟨hf, rfl⟩ unmarshal data
    exact this.2

/-- C17 at concrete inputs: a rejected input leaves the store holding `p/e = {1}` as it is;
an accepted input holding "q"/"e" = [7] and the partition "p" is merged into it. -/
theorem Deserialize_outcomes_witness :
    (exStore1.Deserialize exUnmarshalFail []).1 = exStore1 ∧
    (∃ obj, exUnmarshal [] = .ok obj ∧
      (exStore1.Deserialize exUnmarshal []).1 = exStore1.addAll (reprTriples obj.Partitions)) ∧
    (exStore1.Deserialize exUnmarshal []).1.Values exP exE = exStore1.Values exP exE :=
  ⟨((Deserialize_outcomes exStore1 exUnmarshalFail []).1 _ rfl).2,
   (Deserialize_outcomes exStore1 exUnmarshal []).2.1 (by decide),
   (Deserialize_outcomes exStore1 exUnmarshal []).2.2.2 exP exE (by decide)⟩

/-! ## The shape of reachable stores -/

theorem New_sparse : New.Sparse := by
  refine ⟨New_wf, fun p e => ?_, fun p hp => ?_⟩
  · rw [Values_eq]; exact Nat.zero_le _
  · exact absurd hp (List.not_mem_nil _)

theorem Add_sparse {s : Stats} (h : s.Sparse) (p e : List Byte) (v : Nat) :
    (s.Add p e v).1.Sparse := by
  obtain ⟨hs, h1, h2⟩ := h
  refine ⟨Add_wf hs p e v, fun p1 e1 => ?_, fun p1 hp1 => ?_⟩
  · rw [Values_Add]
    by_cases hm : p1 = p ∧ e1 = e
    · rw [if_pos hm]
      by_cases hf : (s.Values p e).2 = true
      · rw [if_pos hf]; exact h1 p e
      · rw [if_neg hf]; exact Nat.le_refl _
    · rw [if_neg hm]; exact h1 p1 e1
  · by_cases hpp : p1 = p
    · rw [hpp]
      exact List.length_pos_of_mem (mem_Events_Add_self s p e v)
    · rw [Events_Add_of_ne s p e v p1 hpp]
      rcases (mem_Partitions_Add s p e v p1).mp hp1 with h | h
      · exact absurd h hpp
      · exact h2 p1 h

theorem Remove_sparse {s : Stats} (h : s.Sparse) (p e : List Byte) (v : Nat) :
    (s.Remove p e v).1.Sparse := by
  obtain ⟨hs, h1, h2⟩ := h
  refine ⟨Remove_wf hs p e v, fun p1 e1 => ?_, fun p1 hp1 => ?_⟩
  · rw [Values_Remove]
    by_cases hm : p1 = p ∧ e1 = e
    · rw [if_pos hm]
      exact Nat.le_trans (List.length_filter_le _ _) (h1 p e)
    · rw [if_neg hm]; exact h1 p1 e1
  · rw [Events_Remove hs]
    rw [Partitions_Remove hs] at hp1
    exact h2 p1 hp1

/-- The values of every event after `RemovePartition`, in a well-formed store. -/
theorem Values_RemovePartition {s : Stats} (hs : s.WF) (p p1 e1 : List Byte) :
    (s.RemovePartition p).1.Values p1 e1 =
      if p1 = p then ([], false) else s.Values p1 e1 := by
  rw [Values_eq, part_RemovePartition hs]
  by_cases h : p1 = p
  · rw [if_pos h, if_pos h]
  · rw [if_neg h, if_neg h, Values_eq]

/-- The events of the other partitions after `RemovePartition`, in a well-formed store. -/
theorem Events_RemovePartition_of_ne {s : Stats} (hs : s.WF) (p p1 : List Byte)
    (h : p1 ≠ p) : (s.RemovePartition p).1.Events p1 = s.Events p1 := by
  rw [Events_eq, part_RemovePartition hs, if_neg h, Events_eq]

theorem RemovePartition_sparse {s : Stats} (h : s.Sparse) (p : List Byte) :
    (s.RemovePartition p).1.Sparse := by
  obtain ⟨hs, h1, h2⟩ := h
  refine ⟨RemovePartition_wf hs p, fun p1 e1 => ?_, fun p1 hp1 => ?_⟩
  · rw [Values_RemovePartition hs]
    by_cases hpp : p1 = p
    · rw [if_pos hpp]; exact Nat.zero_le _
    · rw [if_neg hpp]; exact h1 p1 e1
  · rw [Partitions_RemovePartition hs, List.mem_filter] at hp1
    have hne : p1 ≠ p := of_decide_eq_true hp1.2
    rw [Events_RemovePartition_of_ne hs p p1 hne]
    exact h2 p1 hp1.1

theorem reachable_sparse {s : Stats} (h : Reachable s) : s.Sparse := by
  induction h with
  | new => exact New_sparse
  | add p e v _ ih => exact Add_sparse ih p e v
  | remove p e v _ ih => exact Remove_sparse ih p e v
  | removePartition p _ ih => exact RemovePartition_sparse ih p
  | deserialize unmarshal data _ ih =>
    exact Deserialize_keeps Stats.Sparse (fun s p e v hs => Add_sparse hs p e v) _ ih
      unmarshal data

/-- `Add` on an event that exists leaves the store as it is. -/
theorem Add_of_found (s : Stats) (p e : List Byte) (v : Nat)
    (hf : (s.Values p e).2 = true) : (s.Add p e v).1 = s := by
  rw [Add_eq]
  rw [Values_eq] at hf
  cases hp : s.part p with
  | none => rw [hp] at hf; exact absurd hf Bool.false_ne_true
  | some q =>
    rw [hp] at hf
    dsimp only at hf ⊢
    cases he : q.event e with
    | none => rw [he] at hf; exact absurd hf Bool.false_ne_true
    | some ev => rfl

/-- C19: in every store reachable from `New()` by `Add`, `Remove`, `RemovePartition` and
`Deserialize`, every existing event holds at most one value (`ValuesCount(p, e) = (n, true)`
implies `n <= 1`) and every existing partition has at least one event
(`EventsCount(p) = (n, true)` implies `n >= 1`); `Add` on an existing event leaves the store
unchanged. -/
theorem reachable_one_value (s : Stats) (h : Reachable s) :
    (∀ p e n, s.ValuesCount p e = (n, true) → n ≤ 1) ∧
    (∀ p n, s.EventsCount p = (n, true) → 1 ≤ n) ∧
    (∀ p e v, (s.Values p e).2 = true → (s.Add p e v).1 = s) := by
  obtain ⟨_, h1, h2⟩ := reachable_sparse h
  refine ⟨fun p e n hn => ?_, fun p n hn => ?_, fun p e v hf => Add_of_found s p e v hf⟩
  · rw [ValuesCount_eq_Values] at hn
    have : (s.Values p e).1.length = n := congrArg Prod.fst hn
    rw [← this]; exact h1 p e
  · rw [EventsCount_eq_Events] at hn
    have hlen : (s.Events p).1.length = n := congrArg Prod.fst hn
    have hfound : (s.Events p).2 = true := congrArg Prod.snd hn
    rw [← hlen]
    exact h2 p ((Events_snd s p).mp hfound)

/-- C19 at a concrete store: the store built by `Add("p","msg:1",1)`, `Add("p","msg:1",2)`,
`Add("p","msg:2",2)` has one value in "msg:1" and two events in "p". -/
theorem reachable_one_value_witness :
    Reachable exStore2 ∧ exStore2.ValuesCount exP exMsg1 = (1, true) ∧ 1 ≤ 1 ∧
      exStore2.EventsCount exP = (2, true) ∧ 1 ≤ 2 :=
  ⟨Reachable.add _ _ _ (Reachable.add _ _ _ (Reachable.add _ _ _ Reachable.new)),
   by decide,
   (reachable_one_value exStore2
     (Reachable.add _ _ _ (Reachable.add _ _ _ (Reachable.add _ _ _ Reachable.new)))).1
     exP exMsg1 1 (by decide),
   by decide,
   (reachable_one_value exStore2
     (Reachable.add _ _ _ (Reachable.add _ _ _ (Reachable.add _ _ _ Reachable.new)))).2.1
     exP 2 (by decide)⟩

/-! ## The round trip of stores with empty events -/

theorem reachableByAddRemove_reachable {s : Stats} (h : ReachableByAddRemove s) :
    Reachable s := by
  induction h with
  | new => exact Reachable.new
  | add p e v _ ih => exact Reachable.add p e v ih
  | remove p e v _ ih => exact Reachable.remove p e v ih

theorem eq_singleton_of_mem {l : List Nat} (hl : l.length ≤ 1) {v : Nat} (hv : v ∈ l) :
    l = [v] := by
  cases l with
  | nil => cases hv
  | cons x xs =>
    cases xs with
    | nil => rw [List.mem_singleton.mp hv]
    | cons y ys => simp at hl

theorem mem_Events_iff (s : Stats) (p e : List Byte) :
    e ∈ (s.Events p).1 ↔ (s.Values p e).2 = true := by
  rw [Values_found_iff]
  constructor
  · intro he
    refine ⟨?_, he⟩
    by_contra hp
    rw [Events_not_found s p hp] at he
    exact absurd he (List.not_mem_nil _)
  · exact fun h => h.2

/-- What `Deserialize` into a fresh store rebuilds from the output of `Serialize`, for a
well-formed store with at most one value in every event: the events that hold a value. -/
theorem round_trip_nonempty {s : Stats} (hs : s.WF) (h1 : ∀ p e, (s.Values p e).1.length ≤ 1)
    (marshal : jsonStatsRepr → Except String (List Byte))
    (unmarshal : List Byte → Except String jsonStatsRepr)
    (hl : LosslessOn marshal unmarshal s.toRepr) :
    ∃ data, s.Serialize marshal = .ok data ∧
      (New.Deserialize unmarshal data).2 = DeserializeExit.returnedNil ∧
      (New.Deserialize unmarshal data).1.WF ∧
      (∀ p e, (New.Deserialize unmarshal data).1.Values p e =
        if (s.Values p e).1 = [] then ([], false) else s.Values p e) ∧
      (∀ p, p ∈ (New.Deserialize unmarshal data).1.Partitions ↔
        ∃ e, (s.Values p e).1 ≠ []) := by
  obtain ⟨data, obj, hm, hu, hperm⟩ := hl
  have hnonil : ∀ entry ∈ obj.Partitions, ∀ x ∈ entry.2, x ≠ none := by
    intro entry hentry
    have h2 : entry ∈ s.toRepr.Partitions := hperm.mem_iff.mp hentry
    rw [toRepr_eq hs] at h2
    obtain ⟨part, _, hpe⟩ := List.mem_map.mp h2
    rw [← hpe]
    exact eventsRepr_no_nil part
  have hD : New.Deserialize unmarshal data =
      (New.addAll (reprTriples obj.Partitions), DeserializeExit.returnedNil) := by
    unfold Stats.Deserialize
    rw [hu]
    dsimp only
    rw [replayPartitions_eq New obj.Partitions hnonil, if_pos rfl]
  have hmem : ∀ p e v, (p, e, v) ∈ reprTriples obj.Partitions ↔
      (s.Values p e).2 = true ∧ v ∈ (s.Values p e).1 := by
    intro p e v
    rw [← mem_reprTriples_toRepr hs, mem_reprTriples, mem_reprTriples]
    constructor
    · rintro ⟨evs, h2, h3⟩; exact ⟨evs, hperm.mem_iff.mp h2, h3⟩
    · rintro ⟨evs, h2, h3⟩; exact ⟨evs, hperm.mem_iff.mpr h2, h3⟩
  have hfound : ∀ p e, (s.Values p e).1 ≠ [] → (s.Values p e).2 = true := by
    intro p e hne
    by_contra hf
    rw [Values_not_found s p e hf] at hne
    exact hne rfl
  have hNewV : ∀ p e, ¬ (New.Values p e).2 = true := by
    intro p e
    rw [Values_eq]
    exact Bool.false_ne_true
  have hV : ∀ p e, (New.addAll (reprTriples obj.Partitions)).Values p e =
      if (s.Values p e).1 = [] then ([], false) else s.Values p e := by
    intro p e
    rw [Values_addAll, if_neg (hNewV p e)]
    cases hfind : (reprTriples obj.Partitions).find?
        (fun t => decide (t.1 = p ∧ t.2.1 = e)) with
    | none =>
      dsimp only
      by_cases hempty : (s.Values p e).1 = []
      · rw [if_pos hempty]
      · exfalso
        obtain ⟨w, hw⟩ := List.exists_mem_of_ne_nil _ hempty
        have hin : (p, e, w) ∈ reprTriples obj.Partitions :=
          (hmem p e w).mpr ⟨hfound p e hempty, hw⟩
        have := List.find?_eq_none.mp hfind (p, e, w) hin
        simp at this
    | some t =>
      dsimp only
      have hin : t ∈ reprTriples obj.Partitions := List.mem_of_find?_eq_some hfind
      have hpe := List.find?_some hfind
      simp only [decide_eq_true_eq] at hpe
      obtain ⟨t1, t2, t3⟩ := t
      dsimp only at hpe ⊢
      obtain ⟨rfl, rfl⟩ := hpe
      obtain ⟨hf, hv⟩ := (hmem t1 t2 t3).mp hin
      have hsing := eq_singleton_of_mem (h1 t1 t2) hv
      have hne : ¬ (s.Values t1 t2).1 = [] := by rw [hsing]; exact List.cons_ne_nil _ _
      rw [if_neg hne]
      apply Prod.ext
      · rw [hsing]
      · rw [hf]
  have hP : ∀ p, p ∈ (New.addAll (reprTriples obj.Partitions)).Partitions ↔
      ∃ e, (s.Values p e).1 ≠ [] := by
    intro p
    rw [mem_Partitions_addAll]
    constructor
    · rintro (h2 | ⟨t, ht, rfl⟩)
      · exact absurd h2 (List.not_mem_nil _)
      · obtain ⟨t1, t2, t3⟩ := t
        exact ⟨t2, List.ne_nil_of_mem ((hmem t1 t2 t3).mp ht).2⟩
    · rintro ⟨e, he⟩
      obtain ⟨w, hw⟩ := List.exists_mem_of_ne_nil _ he
      exact Or.inr ⟨(p, e, w), (hmem p e w).mpr ⟨hfound p e he, hw⟩, rfl⟩
  refine ⟨data, ?_, ?_, ?_, ?_, ?_⟩
  · unfold Stats.Serialize
    rw [hm]
  · rw [hD]
  · rw [hD]; exact addAll_wf New_wf _
  · rw [hD]; exact hV
  · rw [hD]; exact hP

/-- C12 fails on the code, in two ways.  The store after `Add("p","e",1)`,
`Remove("p","e",1)` has the partition "p" with the empty event "e"; `Serialize` writes the
event with no values, `Deserialize` makes no `Add` call for it, and the rebuilt store has no
partition at all.  And the store after `Add("p","a\xff",1)` has an event whose name is not
valid UTF-8; the decoded representation names the event "a\xef\xbf\xbd", and the rebuilt
store does not have the event "a\xff". -/
theorem round_trip_loses_empty_event :
    (ReachableByAddRemove exStoreEmpty ∧
      exStoreEmpty.Partitions = [exP] ∧
      exStoreEmpty.ValuesCount exP exE = (0, true) ∧
      exStoreEmpty.toRepr = ⟨[(exP, [some ⟨exE, []⟩])]⟩ ∧
      (New.Deserialize exUnmarshalEmpty []).2 = DeserializeExit.returnedNil ∧
      (New.Deserialize exUnmarshalEmpty []).1.Partitions = [] ∧
      (New.Deserialize exUnmarshalEmpty []).1.ValuesCount exP exE = (0, false)) ∧
    (ReachableByAddRemove exStoreBadUtf8 ∧
      exStoreBadUtf8.toRepr = ⟨[(exP, [some ⟨exAFF, [1]⟩])]⟩ ∧
      exStoreBadUtf8.Values exP exAFF = ([1], true) ∧
      (New.Deserialize exUnmarshalCoerced []).2 = DeserializeExit.returnedNil ∧
      (New.Deserialize exUnmarshalCoerced []).1.Events exP = ([exACoerced], true) ∧
      (New.Deserialize exUnmarshalCoerced []).1.Values exP exAFF = ([], false)) :=
  ⟨⟨ReachableByAddRemove.remove _ _ _
      (ReachableByAddRemove.add _ _ _ ReachableByAddRemove.new),
    by decide, by decide, by decide, by decide, by decide, by decide⟩,
   ⟨ReachableByAddRemove.add _ _ _ ReachableByAddRemove.new,
    by decide, by decide, by decide, by decide, by decide⟩⟩

/-- C12, amended: for every store `s` obtained from `New()` by `Add` and `Remove` calls, with
a codec that is lossless on the representation of `s`: `Serialize(s)` succeeds and
`Deserialize` of its output into a fresh store returns nil and rebuilds the events of `s`
that hold a value, with the same `Values(p, e)`; an event of `s` with an empty value set is
not found in the new store, and a partition is in the new `Partitions()` exactly when one of
its events holds a value. When no event of `s` is empty, the new store has the same
`Partitions()`, `Events(p)` and `Values(p, e)` as `s`. -/
theorem round_trip_after_Remove (s : Stats) (h : ReachableByAddRemove s)
    (marshal : jsonStatsRepr → Except String (List Byte))
    (unmarshal : List Byte → Except String jsonStatsRepr)
    (hl : LosslessOn marshal unmarshal s.toRepr) :
    ∃ data, s.Serialize marshal = .ok data ∧
      (New.Deserialize unmarshal data).2 = DeserializeExit.returnedNil ∧
      (∀ p e, (s.Values p e).1 ≠ [] →
        (New.Deserialize unmarshal data).1.Values p e = s.Values p e) ∧
      (∀ p e, (s.Values p e).1 = [] →
        (New.Deserialize unmarshal data).1.Values p e = ([], false)) ∧
      (∀ p, p ∈ (New.Deserialize unmarshal data).1.Partitions ↔
        ∃ e, (s.Values p e).1 ≠ []) ∧
      (∀ p e, e ∈ ((New.Deserialize unmarshal data).1.Events p).1 ↔
        (s.Values p e).1 ≠ []) ∧
      ((∀ p e, (s.Values p e).2 = true → (s.Values p e).1 ≠ []) →
        (New.Deserialize unmarshal data).1.Partitions = s.Partitions ∧
        (∀ p, (New.Deserialize unmarshal data).1.Events p = s.Events p) ∧
        (∀ p e, (New.Deserialize unmarshal data).1.Values p e = s.Values p e)) := by
  obtain ⟨hs, h1, h2⟩ := reachable_sparse (reachableByAddRemove_reachable h)
  obtain ⟨data, hser, hexit, hwf, hV, hP⟩ := round_trip_nonempty hs h1 marshal unmarshal hl
  have hfound : ∀ p e, (s.Values p e).1 ≠ [] → (s.Values p e).2 = true := by
    intro p e hne
    by_contra hf
    rw [Values_not_found s p e hf] at hne
    exact hne rfl
  refine ⟨data, hser, hexit, ?_, ?_, hP, ?_, ?_⟩
  · intro p e hne
    rw [hV, if_neg hne]
  · intro p e he
    rw [hV, if_pos he]
  · intro p e
    rw [mem_Events_iff, hV]
    by_cases he : (s.Values p e).1 = []
    · rw [if_pos he]
      exact ⟨fun hf => absurd hf Bool.false_ne_true, fun hne => absurd he hne⟩
    · rw [if_neg he]
      exact ⟨fun _ => he, fun _ => hfound p e he⟩
  · intro hno
    have hVeq : ∀ p e, (New.Deserialize unmarshal data).1.Values p e = s.Values p e := by
      intro p e
      rw [hV]
      by_cases he : (s.Values p e).1 = []
      · rw [if_pos he]
        symm
        apply Values_not_found
        intro hf
        exact hno p e hf he
      · rw [if_neg he]
    have hPeq : ∀ p, p ∈ (New.Deserialize unmarshal data).1.Partitions ↔ p ∈ s.Partitions := by
      intro p
      rw [hP]
      constructor
      · rintro ⟨e, he⟩
        exact ((Values_found_iff s p e).mp (hfound p e he)).1
      · intro hp
        obtain ⟨e, he⟩ := List.exists_mem_of_length_pos (h2 p hp)
        have hf := (mem_Events_iff s p e).mp he
        exact ⟨e, hno p e hf⟩
    have hobs := observably_equal hs hwf hPeq hVeq
    exact ⟨hobs.1, hobs.2, hVeq⟩

/-- C12, amended, at a concrete store: the store with the empty event "p"/"e" is rebuilt
without that event. -/
theorem round_trip_after_Remove_witness :
    ReachableByAddRemove exStoreEmpty ∧
    LosslessOn exMarshal exUnmarshalEmpty exStoreEmpty.toRepr ∧
    ∃ data, exStoreEmpty.Serialize exMarshal = .ok data ∧
      (New.Deserialize exUnmarshalEmpty data).2 = DeserializeExit.returnedNil ∧
      (New.Deserialize exUnmarshalEmpty data).1.Values exP exE = ([], false) :=
  ⟨ReachableByAddRemove.remove _ _ _ (ReachableByAddRemove.add _ _ _ ReachableByAddRemove.new),
   ⟨[], exStoreEmpty.toRepr, rfl, rfl, List.Perm.refl _⟩,
   match round_trip_after_Remove exStoreEmpty
      (ReachableByAddRemove.remove _ _ _
        (ReachableByAddRemove.add _ _ _ ReachableByAddRemove.new))
      exMarshal exUnmarshalEmpty ⟨[], exStoreEmpty.toRepr, rfl, rfl, List.Perm.refl _⟩ with
   | ⟨data, h1, h2, _, h4, _⟩ => ⟨data, h1, h2, h4 exP exE (by decide)⟩⟩

/-! ## The order of the partitions in a replay -/

theorem find_eventTriples_of_ne (q p e : List Byte) (evs : List (Option jsonEventsRepr))
    (h : q ≠ p) :
    (eventTriples q evs).find? (fun t => decide (t.1 = p ∧ t.2.1 = e)) = none := by
  rw [List.find?_eq_none]
  intro t ht
  obtain ⟨t1, t2, t3⟩ := t
  have := ((mem_eventTriples q evs t1 t2 t3).mp ht).1
  simp only [decide_eq_true_eq, not_and]
  intro h1
  exact absurd (this.symm.trans h1) h

/-- The first `Add` call that addresses an event does not depend on the order in which the
entries of a map with distinct keys are visited. -/
theorem find_reprTriples_perm {ps1 ps2 : List (List Byte × List (Option jsonEventsRepr))}
    (h : ps1.Perm ps2) (nd : (ps1.map Prod.fst).Nodup) (p e : List Byte) :
    (reprTriples ps1).find? (fun t => decide (t.1 = p ∧ t.2.1 = e)) =
      (reprTriples ps2).find? (fun t => decide (t.1 = p ∧ t.2.1 = e)) := by
  induction h with
  | nil => rfl
  | cons x _ ih =>
    obtain ⟨q, evs⟩ := x
    rw [List.map_cons, List.nodup_cons] at nd
    rw [reprTriples, reprTriples, List.find?_append, List.find?_append, ih nd.2]
  | swap x y l =>
    obtain ⟨q, evs⟩ := x
    obtain ⟨r, evs1⟩ := y
    have hne : r ≠ q := by
      simp only [List.map_cons, List.nodup_cons, List.mem_cons, not_or] at nd
      exact nd.1.1
    rw [reprTriples, reprTriples, reprTriples, reprTriples, List.find?_append,
      List.find?_append, List.find?_append, List.find?_append]
    by_cases hq : q = p
    · have hr : r ≠ p := fun h => hne (h.trans hq.symm)
      rw [find_eventTriples_of_ne r p e evs1 hr, Option.none_or, Option.none_or]
    · rw [find_eventTriples_of_ne q p e evs hq, Option.none_or, Option.none_or]
  | trans h1 _ ih1 ih2 =>
    exact (ih1 nd).trans (ih2 ((h1.map Prod.fst).nodup_iff.mp nd))

/-- Two `Add` calls on different partitions can be made in either order. -/
theorem Add_commute {s : Stats} (hs : s.WF) (p e : List Byte) (v : Nat)
    (q f : List Byte) (w : Nat) (hpq : p ≠ q) :
    ((s.Add p e v).1.Add q f w).1.Partitions = ((s.Add q f w).1.Add p e v).1.Partitions ∧
    (∀ r, ((s.Add p e v).1.Add q f w).1.Events r = ((s.Add q f w).1.Add p e v).1.Events r) ∧
    (∀ r g, ((s.Add p e v).1.Add q f w).1.Values r g =
      ((s.Add q f w).1.Add p e v).1.Values r g) := by
  have hV : ∀ r g, ((s.Add p e v).1.Add q f w).1.Values r g =
      ((s.Add q f w).1.Add p e v).1.Values r g := by
    intro r g
    rw [Values_Add, Values_Add, Values_Add, Values_Add, Values_Add, Values_Add]
    have h1 : ¬ (q = p ∧ f = e) := fun h => hpq h.1.symm
    have h2 : ¬ (p = q ∧ e = f) := fun h => hpq h.1
    by_cases hp : r = p ∧ g = e
    · have h3 : ¬ (r = q ∧ g = f) := fun h => hpq (hp.1.symm.trans h.1)
      simp only [if_neg h1, if_neg h2, if_neg h3, if_pos hp]
    · simp only [if_neg h1, if_neg h2, if_neg hp]
  have hP : ∀ r, r ∈ ((s.Add p e v).1.Add q f w).1.Partitions ↔
      r ∈ ((s.Add q f w).1.Add p e v).1.Partitions := by
    intro r
    rw [mem_Partitions_Add, mem_Partitions_Add, mem_Partitions_Add, mem_Partitions_Add]
    constructor
    · rintro (h | h | h)
      · exact Or.inr (Or.inl h)
      · exact Or.inl h
      · exact Or.inr (Or.inr h)
    · rintro (h | h | h)
      · exact Or.inr (Or.inl h)
      · exact Or.inl h
      · exact Or.inr (Or.inr h)
  have hobs := observably_equal (Add_wf (Add_wf hs q f w) p e v)
    (Add_wf (Add_wf hs p e v) q f w) hP hV
  exact ⟨hobs.1, hobs.2, hV⟩

/-- C20, amended: for every well-formed starting store and every parsed representation
whose map has distinct keys, the replay loop of `Deserialize` run over the partitions in any
two orders (each partition's events and each event's values in their given order) ends the
same way: it completes in both orders when no event record is nil, and panics in both
otherwise.  When no event record is nil the two orders leave stores with the same
`Partitions()`, `Events(p)` and `Values(p, e)`; `Add` calls on different partitions can be
made in either order. -/
theorem Deserialize_order_independent (s : Stats) (hs : s.WF)
    (ps1 ps2 : List (List Byte × List (Option jsonEventsRepr)))
    (hnd : (ps1.map Prod.fst).Nodup) (hperm : ps1.Perm ps2) :
    (s.replayPartitions ps1).2 = (s.replayPartitions ps2).2 ∧
    ((s.replayPartitions ps1).2 = true →
      (s.replayPartitions ps1).1.Partitions = (s.replayPartitions ps2).1.Partitions ∧
      (∀ p, (s.replayPartitions ps1).1.Events p = (s.replayPartitions ps2).1.Events p) ∧
      (∀ p e, (s.replayPartitions ps1).1.Values p e =
        (s.replayPartitions ps2).1.Values p e)) ∧
    (∀ p e v q f w, p ≠ q →
      ∀ r g, ((s.Add p e v).1.Add q f w).1.Values r g =
        ((s.Add q f w).1.Add p e v).1.Values r g) ∧
    ((s.replayPartitions ps1).2 = true ↔ ∀ entry ∈ ps1, ∀ x ∈ entry.2, x ≠ none) := by
  have hflag : (s.replayPartitions ps1).2 = (s.replayPartitions ps2).2 := by
    rw [replayPartitions_snd, replayPartitions_snd, Bool.eq_iff_iff, List.all_eq_true,
      List.all_eq_true]
    constructor
    · intro h x hx; exact h x (hperm.mem_iff.mpr hx)
    · intro h x hx; exact h x (hperm.mem_iff.mp hx)
  refine ⟨hflag, ?_, fun p e v q f w hpq => (Add_commute hs p e v q f w hpq).2.2,
    ⟨fun h => no_nil_of_all ((replayPartitions_snd s ps1) ▸ h),
     fun h => (replayPartitions_snd s ps1).trans (all_of_no_nil h)⟩⟩
  intro h1
  have h2 : (s.replayPartitions ps2).2 = true := hflag ▸ h1
  rw [replayPartitions_snd] at h1 h2
  rw [replayPartitions_eq s ps1 (no_nil_of_all h1),
    replayPartitions_eq s ps2 (no_nil_of_all h2)]
  dsimp only
  have hV : ∀ p e, (s.addAll (reprTriples ps1)).Values p e =
      (s.addAll (reprTriples ps2)).Values p e := by
    intro p e
    rw [Values_addAll, Values_addAll, find_reprTriples_perm hperm hnd p e]
  have hP : ∀ p, p ∈ (s.addAll (reprTriples ps1)).Partitions ↔
      p ∈ (s.addAll (reprTriples ps2)).Partitions := by
    intro p
    rw [mem_Partitions_addAll, mem_Partitions_addAll]
    have hex : ∀ {a b : List (List Byte × List (Option jsonEventsRepr))},
        (∀ x, x ∈ a → x ∈ b) →
        (∃ t ∈ reprTriples a, t.1 = p) → ∃ t ∈ reprTriples b, t.1 = p := by
      rintro a b hab ⟨⟨t1, t2, t3⟩, ht, hp⟩
      obtain ⟨evs, hm, hrest⟩ := (mem_reprTriples a t1 t2 t3).mp ht
      exact ⟨(t1, t2, t3), (mem_reprTriples b t1 t2 t3).mpr ⟨evs, hab _ hm, hrest⟩, hp⟩
    constructor
    · rintro (h | h)
      · exact Or.inl h
      · exact Or.inr (hex (fun x hx => hperm.mem_iff.mp hx) h)
    · rintro (h | h)
      · exact Or.inl h
      · exact Or.inr (hex (fun x hx => hperm.mem_iff.mpr hx) h)
  have hobs := observably_equal (addAll_wf hs (reprTriples ps2))
    (addAll_wf hs (reprTriples ps1)) hP hV
  exact ⟨hobs.1, hobs.2, hV⟩

/-- C20 fails on the code: with the entries "a" (one event with the value 1) and "p" (a nil
event record), the replay into a fresh store panics in both orders, having added the
partition "a" when "a" is visited first and nothing when "p" is visited first. -/
theorem replay_order_matters_with_nil :
    New.WF ∧ (exEntriesNil.map Prod.fst).Nodup ∧ exEntriesNil.Perm exEntriesNil.reverse ∧
    (New.replayPartitions exEntriesNil).2 = false ∧
    (New.replayPartitions exEntriesNil.reverse).2 = false ∧
    (New.replayPartitions exEntriesNil).1.Partitions = [exA] ∧
    (New.replayPartitions exEntriesNil.reverse).1.Partitions = [] ∧
    (New.Deserialize (fun _ => .ok ⟨exEntriesNil⟩) []).1.Partitions ≠
      (New.Deserialize (fun _ => .ok ⟨exEntriesNil.reverse⟩) []).1.Partitions :=
  ⟨by decide, by decide, (List.reverse_perm _).symm, by decide, by decide, by decide,
   by decide, by decide⟩

/-- C20, amended, at a concrete input: the entries for "q" and "p" replayed into the store holding
`p/e = {1}`, in the given and in the reverse order. -/
theorem Deserialize_order_independent_witness :
    exStore1.WF ∧ (exEntries.map Prod.fst).Nodup ∧ exEntries.Perm exEntries.reverse ∧
    (exStore1.replayPartitions exEntries).1.Partitions =
      (exStore1.replayPartitions exEntries.reverse).1.Partitions ∧
    (exStore1.replayPartitions exEntries).1.Values exQ exE =
      (exStore1.replayPartitions exEntries.reverse).1.Values exQ exE :=
  ⟨by decide, by decide, (List.reverse_perm _).symm,
   ((Deserialize_order_independent exStore1 (by decide) exEntries exEntries.reverse
      (by decide) (List.reverse_perm _).symm).2.1 (by decide)).1,
   ((Deserialize_order_independent exStore1 (by decide) exEntries exEntries.reverse
      (by decide) (List.reverse_perm _).symm).2.1 (by decide)).2.2 exQ exE⟩

/-! ## Eviction of the smallest partition -/

theorem foldl_min_of_least {α : Type} (less : α → α → Bool) (m : α) (xs : List α)
    (h : ∀ y ∈ xs, less y m = false) :
    xs.foldl (fun m y => if less y m then y else m) m = m := by
  induction xs with
  | nil => rfl
  | cons y ys ih =>
    rw [List.foldl_cons, h y (List.mem_cons_self _ _)]
    exact ih (fun z hz => h z (List.mem_cons_of_mem _ hz))

theorem RemoveMinPartition_nil {s : Stats} (h : s.partitions.items = []) :
    s.RemoveMinPartition = (s, [], false) := by
  unfold Stats.RemoveMinPartition BTreeG.Min
  rw [h]

theorem RemoveMinPartition_cons {s : Stats} (hs : s.WF) {x : statsPartition}
    {xs : List statsPartition} (h : s.partitions.items = x :: xs) :
    s.RemoveMinPartition = (⟨⟨xs⟩⟩, x.name, true) := by
  have hasc := hs.1
  rw [h, List.map_cons] at hasc
  simp only [Ascending, List.pairwise_cons] at hasc
  have hleast : ∀ y ∈ xs, statsPartitionLess y x = false := by
    intro y hy
    have hlt := hasc.1 y.name (List.mem_map_of_mem (fun p : statsPartition => p.name) hy)
    have hn : ¬ statsPartitionLess y x = true := fun hc =>
      bytesCompare_asymm hlt ((less_iff statsPartitionLess_keyed y x).mp hc)
    simpa using hn
  have hmin : s.partitions.Min statsPartitionLess = some x := by
    unfold BTreeG.Min
    rw [h]
    dsimp only
    rw [foldl_min_of_least statsPartitionLess x xs hleast]
  have hdel : (s.partitions.Delete statsPartitionLess x).1 = ⟨xs⟩ := by
    unfold BTreeG.Delete
    rw [h, BTreeG.deleteList,
      if_pos ((same_iff statsPartitionLess_keyed x x).mpr rfl)]
  unfold Stats.RemoveMinPartition
  rw [hmin]
  dsimp only
  rw [hdel]

theorem tail_wf {s : Stats} (hs : s.WF) {x : statsPartition} {xs : List statsPartition}
    (h : s.partitions.items = x :: xs) : Stats.WF ⟨⟨xs⟩⟩ := by
  obtain ⟨h1, h2⟩ := hs
  rw [h] at h1 h2
  rw [List.map_cons] at h1
  simp only [Ascending, List.pairwise_cons] at h1
  exact ⟨h1.2, fun p hp => h2 p (List.mem_cons_of_mem _ hp)⟩

/-- The repeated eviction returns the names of all partitions in their order and leaves no
partition. -/
theorem removeAllMin_eq (fuel : Nat) {s : Stats} (hs : s.WF)
    (hf : s.PartitionsCount ≤ fuel) :
    (s.removeAllMin fuel).1 = s.Partitions ∧ (s.removeAllMin fuel).2.Partitions = [] ∧
      (s.removeAllMin fuel).2.RemoveMinPartition.2.2 = false := by
  induction fuel generalizing s with
  | zero =>
    have hnil : s.partitions.items = [] :=
      List.eq_nil_of_length_eq_zero (Nat.le_zero.mp hf)
    refine ⟨?_, ?_, ?_⟩
    · show [] = s.partitions.items.map _
      rw [hnil]; rfl
    · show s.partitions.items.map _ = []
      rw [hnil]; rfl
    · show s.RemoveMinPartition.2.2 = false
      rw [RemoveMinPartition_nil hnil]
  | succ fuel ih =>
    cases hitems : s.partitions.items with
    | nil =>
      have hr := RemoveMinPartition_nil hitems
      rw [Stats.removeAllMin, hr]
      dsimp only
      rw [if_neg Bool.false_ne_true]
      refine ⟨?_, ?_, ?_⟩
      · show [] = s.partitions.items.map _
        rw [hitems]; rfl
      · show s.partitions.items.map _ = []
        rw [hitems]; rfl
      · show s.RemoveMinPartition.2.2 = false
        rw [hr]
    | cons x xs =>
      have hr := RemoveMinPartition_cons hs hitems
      have hlen : Stats.PartitionsCount ⟨⟨xs⟩⟩ ≤ fuel := by
        have : s.partitions.items.length ≤ fuel + 1 := hf
        rw [hitems, List.length_cons] at this
        exact Nat.le_of_succ_le_succ this
      obtain ⟨i1, i2, i3⟩ := ih (tail_wf hs hitems) hlen
      rw [Stats.removeAllMin, hr]
      dsimp only
      rw [if_pos rfl]
      refine ⟨?_, i2, i3⟩
      show x.name :: _ = s.partitions.items.map _
      rw [i1, hitems]
      rfl

/-- C14: in a well-formed store, `RemoveMinPartition()` returns false and leaves the store as
it is when there are no partitions; otherwise it returns `(m, true)` where `m` is the first
element of `Partitions()`, no name in `Partitions()` is smaller than `m`, and afterwards
`Partitions()` is the previous list without its first element; calls repeated until one
returns false return the names of all partitions, each once, in the ascending order of
`Partitions()`, and leave no partition. -/
theorem RemoveMinPartition_spec (s : Stats) (hs : s.WF) :
    (s.Partitions = [] → s.RemoveMinPartition.2.2 = false ∧ s.RemoveMinPartition.1 = s) ∧
    (∀ m rest, s.Partitions = m :: rest →
      s.RemoveMinPartition.2 = (m, true) ∧
      (∀ n ∈ s.Partitions, ¬ bytesCompare n m < 0) ∧
      s.RemoveMinPartition.1.Partitions = rest ∧
      s.RemoveMinPartition.1.WF) ∧
    (∀ fuel, s.PartitionsCount ≤ fuel →
      (s.removeAllMin fuel).1 = s.Partitions ∧ Ascending (s.removeAllMin fuel).1 ∧
      (s.removeAllMin fuel).2.Partitions = [] ∧
      (s.removeAllMin fuel).2.RemoveMinPartition.2.2 = false) := by
  refine ⟨?_, ?_, ?_⟩
  · intro h
    have hnil : s.partitions.items = [] := List.map_eq_nil_iff.mp h
    rw [RemoveMinPartition_nil hnil]
    exact ⟨rfl, rfl⟩
  · intro m rest h
    cases hitems : s.partitions.items with
    | nil =>
      have : s.Partitions = [] := by
        show s.partitions.items.map _ = []
        rw [hitems]; rfl
      rw [this] at h
      cases h
    | cons x xs =>
      have hP : s.Partitions = x.name :: xs.map (fun p => p.name) := by
        show s.partitions.items.map _ = _
        rw [hitems]; rfl
      rw [hP] at h
      injection h with hm hrest
      have hasc := hs.1
      rw [hitems, List.map_cons] at hasc
      simp only [Ascending, List.pairwise_cons] at hasc
      rw [RemoveMinPartition_cons hs hitems]
      refine ⟨by rw [hm], ?_, hrest, tail_wf hs hitems⟩
      intro n hn
      rw [hP] at hn
      rw [← hm]
      rcases List.mem_cons.mp hn with h1 | h1
      · rw [h1]; exact bytesCompare_irrefl _
      · exact bytesCompare_asymm (hasc.1 n h1)
  · intro fuel hf
    obtain ⟨h1, h2, h3⟩ := removeAllMin_eq fuel hs hf
    refine ⟨h1, ?_, h2, h3⟩
    rw [h1]
    exact hs.1

/-- C14 at a concrete store: the store with the partitions "p" and "q". -/
theorem RemoveMinPartition_spec_witness :
    exStore3.WF ∧ exStore3.Partitions = [exP, exQ] ∧
    exStore3.RemoveMinPartition.2 = (exP, true) ∧
    exStore3.RemoveMinPartition.1.Partitions = [exQ] ∧
    (exStore3.removeAllMin 2).1 = [exP, exQ] :=
  ⟨by decide, by decide,
   ((RemoveMinPartition_spec exStore3 (by decide)).2.1 exP [exQ] (by decide)).1,
   ((RemoveMinPartition_spec exStore3 (by decide)).2.1 exP [exQ] (by decide)).2.2.1,
   ((RemoveMinPartition_spec exStore3 (by decide)).2.2 2 (by decide)).1.trans (by decide)⟩

end Bitstats
